import Mathlib

/-!
Verification of the adaptive-window weighted-least-squares fit extractor and
the film-state property calculations of the `chamber` repository.

The embedding works over `ℚ` (the source computes with Python floats; we model
the exact-arithmetic semantics of the formulas).  Python exceptions
(`ZeroDivisionError` from `1/sig**2` or from the divisions by `Delta`) are
modelled by `Option`/sum results.  The source stores `sig_a = (Sxx/Delta)**0.5`
and `sig_b = (S/Delta)**0.5`; to stay in exact arithmetic the embedding carries
the squares `sig_a_sq = Sxx/Delta` and `sig_b_sq = S/Delta`, and every use of
`sig_b` in the source (the acceptance test `sig_b/abs(b) <= error`) is embedded
in the equivalent squared form; the lemma `sqrt_div_abs_le_iff` proves the two
forms equivalent over `ℝ`.
-/

/-- Sum of `f i` for `i = 0 .. n-1`, the shape of the Python generator sums
`sum(... for i in range(len(x)))` in `_ols_fit` and `_evaluate_fit`. -/
def sumIdx (n : ℕ) (f : ℕ → ℚ) : ℚ := ((List.range n).map f).sum

theorem sumIdx_succ (n : ℕ) (f : ℕ → ℚ) : sumIdx (n + 1) f = sumIdx n f + f n := by
  simp [sumIdx, List.range_succ]

theorem sumIdx_eq_finset (n : ℕ) (f : ℕ → ℚ) : sumIdx n f = ∑ i ∈ Finset.range n, f i := by
  induction n with
  | zero => simp [sumIdx]
  | succ n ih => rw [sumIdx_succ, ih, Finset.sum_range_succ]

theorem sumIdx_nonneg (n : ℕ) (f : ℕ → ℚ) (h : ∀ i, i < n → 0 ≤ f i) :
    0 ≤ sumIdx n f := by
  induction n with
  | zero => simp [sumIdx]
  | succ n ih =>
    rw [sumIdx_succ]
    have h1 : 0 ≤ sumIdx n f := ih fun i hi => h i (Nat.lt_succ_of_lt hi)
    have h2 : 0 ≤ f n := h n (Nat.lt_succ_self n)
    linarith

theorem sumIdx_congr (n : ℕ) (f g : ℕ → ℚ) (h : ∀ i, i < n → f i = g i) :
    sumIdx n f = sumIdx n g := by
  induction n with
  | zero => simp [sumIdx]
  | succ n ih =>
    rw [sumIdx_succ, sumIdx_succ, ih fun i hi => h i (Nat.lt_succ_of_lt hi),
      h n (Nat.lt_succ_self n)]

theorem sumIdx_add (n : ℕ) (f g : ℕ → ℚ) :
    sumIdx n (fun i => f i + g i) = sumIdx n f + sumIdx n g := by
  induction n with
  | zero => simp [sumIdx]
  | succ n ih => rw [sumIdx_succ, sumIdx_succ, sumIdx_succ, ih]; ring

theorem sumIdx_sub (n : ℕ) (f g : ℕ → ℚ) :
    sumIdx n (fun i => f i - g i) = sumIdx n f - sumIdx n g := by
  induction n with
  | zero => simp [sumIdx]
  | succ n ih => rw [sumIdx_succ, sumIdx_succ, sumIdx_succ, ih]; ring

theorem sumIdx_mul_left (n : ℕ) (c : ℚ) (f : ℕ → ℚ) :
    sumIdx n (fun i => c * f i) = c * sumIdx n f := by
  induction n with
  | zero => simp [sumIdx]
  | succ n ih => rw [sumIdx_succ, sumIdx_succ, ih]; ring

/-! ## `_ols_fit` (src/chamber/engine/analysis/service.py, lines 433-459)

The sample is the list of `(nominal_value, std_dev)` pairs extracted from the
mass channel ufloats; the abscissae are always `x = range(len(y))`. -/

/-- `y[i]` of `_ols_fit`: nominal value of the `i`-th mass observation. -/
def yAt (ms : List (ℚ × ℚ)) (i : ℕ) : ℚ := (ms.getD i (0, 0)).1

/-- `sig[i]` of `_ols_fit`: standard deviation of the `i`-th mass observation. -/
def sigAt (ms : List (ℚ × ℚ)) (i : ℕ) : ℚ := (ms.getD i (0, 0)).2

/-- `S = sum(1/sig[i]**2 for i in range(len(x)))`. -/
def olsS (ms : List (ℚ × ℚ)) : ℚ := sumIdx ms.length (fun i => 1 / (sigAt ms i) ^ 2)

/-- `Sx = sum(x[i]/sig[i]**2 for i in range(len(x)))` with `x[i] = i`. -/
def olsSx (ms : List (ℚ × ℚ)) : ℚ := sumIdx ms.length (fun i => (i : ℚ) / (sigAt ms i) ^ 2)

/-- `Sy = sum(y[i]/sig[i]**2 for i in range(len(x)))`. -/
def olsSy (ms : List (ℚ × ℚ)) : ℚ := sumIdx ms.length (fun i => yAt ms i / (sigAt ms i) ^ 2)

/-- `Sxx = sum(x[i]**2/sig[i]**2 for i in range(len(x)))`. -/
def olsSxx (ms : List (ℚ × ℚ)) : ℚ := sumIdx ms.length (fun i => (i : ℚ) ^ 2 / (sigAt ms i) ^ 2)

/-- `Sxy = sum(x[i]*y[i]/sig[i]**2 for i in range(len(x)))`. -/
def olsSxy (ms : List (ℚ × ℚ)) : ℚ :=
  sumIdx ms.length (fun i => (i : ℚ) * yAt ms i / (sigAt ms i) ^ 2)

/-- `Delta = S*Sxx - Sx**2`. -/
def olsDelta (ms : List (ℚ × ℚ)) : ℚ := olsS ms * olsSxx ms - olsSx ms ^ 2

/-- The fit dictionary returned by `_ols_fit`; `sig_a_sq`/`sig_b_sq` are the
squares of the source's `sig_a = (Sxx/Delta)**0.5` and `sig_b = (S/Delta)**0.5`. -/
structure FitRes where
  a : ℚ
  sig_a_sq : ℚ
  b : ℚ
  sig_b_sq : ℚ
  deriving DecidableEq, Repr

/-- `True` when some `sig[i]` with `i < len` is `0`: there `1/sig[i]**2` raises
`ZeroDivisionError` in the source. -/
def anySigZero (ms : List (ℚ × ℚ)) : Bool :=
  (List.range ms.length).any (fun i => sigAt ms i == 0)

/-- Embedding of `_ols_fit`.  `none` models a `ZeroDivisionError` escaping the
call: either some `sig[i] = 0` (raised while summing `S`) or `Delta = 0`
(raised by the divisions producing `a`, `sig_a`, `b`, `sig_b`). -/
def olsFit (ms : List (ℚ × ℚ)) : Option FitRes :=
  if anySigZero ms then none
  else if olsDelta ms = 0 then none
  else some
    ⟨(olsSxx ms * olsSy ms - olsSx ms * olsSxy ms) / olsDelta ms,
     olsSxx ms / olsDelta ms,
     (olsS ms * olsSxy ms - olsSx ms * olsSy ms) / olsDelta ms,
     olsS ms / olsDelta ms⟩

/-! ### Positivity of `Delta` for at least two points with nonzero sigmas -/

theorem delta_key (w : ℕ → ℚ) :
    ∀ n, 2 ≤ n → (∀ i, i < n → 0 < w i) →
      0 < sumIdx n w * sumIdx n (fun i => (i : ℚ) ^ 2 * w i) -
        (sumIdx n (fun i => (i : ℚ) * w i)) ^ 2 := by
  intro n
  induction n with
  | zero => omega
  | succ n ih =>
    intro h2 hw
    rcases Nat.lt_or_ge n 2 with hn | hn
    · -- base case: n + 1 = 2
      have hn1 : n = 1 := by omega
      subst hn1
      have h0 : 0 < w 0 := hw 0 (by omega)
      have h1 : 0 < w 1 := hw 1 (by omega)
      have : sumIdx 2 w * sumIdx 2 (fun i => (i : ℚ) ^ 2 * w i) -
          (sumIdx 2 (fun i => (i : ℚ) * w i)) ^ 2 = w 0 * w 1 := by
        simp [sumIdx, List.range_succ]
        ring
      rw [this]
      exact mul_pos h0 h1
    · -- inductive step
      have hrec := ih hn (fun i hi => hw i (Nat.lt_succ_of_lt hi))
      have hstep : sumIdx (n + 1) w * sumIdx (n + 1) (fun i => (i : ℚ) ^ 2 * w i) -
          (sumIdx (n + 1) (fun i => (i : ℚ) * w i)) ^ 2 =
          (sumIdx n w * sumIdx n (fun i => (i : ℚ) ^ 2 * w i) -
            (sumIdx n (fun i => (i : ℚ) * w i)) ^ 2) +
          w n * sumIdx n (fun i => ((n : ℚ) - (i : ℚ)) ^ 2 * w i) := by
        rw [sumIdx_succ, sumIdx_succ, sumIdx_succ]
        have hexp : sumIdx n (fun i => ((n : ℚ) - (i : ℚ)) ^ 2 * w i) =
            (n : ℚ) ^ 2 * sumIdx n w - 2 * (n : ℚ) * sumIdx n (fun i => (i : ℚ) * w i) +
              sumIdx n (fun i => (i : ℚ) ^ 2 * w i) := by
          have hpt : sumIdx n (fun i => ((n : ℚ) - (i : ℚ)) ^ 2 * w i) =
              sumIdx n (fun i =>
                ((n : ℚ) ^ 2 * w i - 2 * (n : ℚ) * ((i : ℚ) * w i)) + (i : ℚ) ^ 2 * w i) := by
            apply sumIdx_congr
            intro i _
            ring
          rw [hpt, sumIdx_add, sumIdx_sub, sumIdx_mul_left, sumIdx_mul_left]
        rw [hexp]
        ring
      rw [hstep]
      have hpos : 0 ≤ w n * sumIdx n (fun i => ((n : ℚ) - (i : ℚ)) ^ 2 * w i) := by
        apply mul_nonneg (le_of_lt (hw n (Nat.lt_succ_self n)))
        apply sumIdx_nonneg
        intro i hi
        have := hw i (Nat.lt_succ_of_lt hi)
        positivity
      linarith

theorem olsDelta_pos (ms : List (ℚ × ℚ)) (hlen : 2 ≤ ms.length)
    (hsig : ∀ i, i < ms.length → sigAt ms i ≠ 0) : 0 < olsDelta ms := by
  have hw : ∀ i, i < ms.length → 0 < 1 / (sigAt ms i) ^ 2 := by
    intro i hi
    have := hsig i hi
    positivity
  have hkey := delta_key (fun i => 1 / (sigAt ms i) ^ 2) ms.length hlen hw
  have hxx : olsSxx ms = sumIdx ms.length (fun i => (i : ℚ) ^ 2 * (1 / (sigAt ms i) ^ 2)) := by
    apply sumIdx_congr
    intro i _
    rw [div_eq_mul_one_div]
  have hx : olsSx ms = sumIdx ms.length (fun i => (i : ℚ) * (1 / (sigAt ms i) ^ 2)) := by
    apply sumIdx_congr
    intro i _
    rw [div_eq_mul_one_div]
  rw [olsDelta, hxx, hx]
  exact hkey

theorem anySigZero_eq_false (ms : List (ℚ × ℚ))
    (hsig : ∀ i, i < ms.length → sigAt ms i ≠ 0) : anySigZero ms = false := by
  simp only [anySigZero, List.any_eq_false, List.mem_range, beq_iff_eq]
  exact hsig

/-- With at least two points and nonzero sigmas, `_ols_fit` returns the
Numerical-Recipes fit (no exception escapes). -/
theorem olsFit_eq_some (ms : List (ℚ × ℚ)) (hlen : 2 ≤ ms.length)
    (hsig : ∀ i, i < ms.length → sigAt ms i ≠ 0) :
    olsFit ms = some
      ⟨(olsSxx ms * olsSy ms - olsSx ms * olsSxy ms) / olsDelta ms,
       olsSxx ms / olsDelta ms,
       (olsS ms * olsSxy ms - olsSx ms * olsSy ms) / olsDelta ms,
       olsS ms / olsDelta ms⟩ := by
  have hd := olsDelta_pos ms hlen hsig
  rw [olsFit, anySigZero_eq_false ms hsig]
  simp [ne_of_gt hd]

/-! ## `_evaluate_fit` (src/chamber/engine/analysis/service.py, lines 484-516)

`Q = chi2.sf(merit_value, len(x)-2)` calls `scipy.stats.chi2.sf`, an external
library function; it enters the embedding as an opaque parameter
`sf : ℚ → ℕ → ℚ` shared by every use. -/

/-- `y_bar = sum(y)/len(y)`. -/
def ybar (ms : List (ℚ × ℚ)) : ℚ := sumIdx ms.length (fun i => yAt ms i) / ms.length

/-- `SSres = sum((y[i] - predicted[i])**2 ...)` with `predicted[i] = a + b*i`. -/
def evalSSres (fit : FitRes) (ms : List (ℚ × ℚ)) : ℚ :=
  sumIdx ms.length (fun i => (yAt ms i - (fit.a + fit.b * i)) ^ 2)

/-- `SStot = sum((y[i] - y_bar)**2 ...)`. -/
def evalSStot (ms : List (ℚ × ℚ)) : ℚ :=
  sumIdx ms.length (fun i => (yAt ms i - ybar ms) ^ 2)

/-- `R2 = 1 - SSres/SStot`.  (On a constant-mass window `SStot = 0` and Python
would raise; the scan never evaluates such a window because a constant window
has slope `b = 0` and is rejected by the inner search, so the totalized `ℚ`
division is only ever applied with `SStot ≠ 0`.) -/
def evalR2 (fit : FitRes) (ms : List (ℚ × ℚ)) : ℚ := 1 - evalSSres fit ms / evalSStot ms

/-- `merit_value = sum(((y[i] - a - b*x[i])/sig[i])**2 ...)`. -/
def evalChi2 (fit : FitRes) (ms : List (ℚ × ℚ)) : ℚ :=
  sumIdx ms.length (fun i => ((yAt ms i - fit.a - fit.b * i) / sigAt ms i) ^ 2)

/-- The evaluated-fit payload of `_evaluate_fit` (`exp_id` is an opaque
database key and is omitted). -/
structure EvalRes where
  a : ℚ
  sig_a_sq : ℚ
  b : ℚ
  sig_b_sq : ℚ
  r2 : ℚ
  q : ℚ
  chi2v : ℚ
  nu : ℕ
  idx : ℕ
  deriving DecidableEq, Repr

/-- Embedding of `_evaluate_fit`: copies the fit parameters and adds `r2`, `q`,
`chi2`, `nu = len(x) - 2` and the scan position `idx`. -/
def evaluateFit (sf : ℚ → ℕ → ℚ) (fit : FitRes) (ms : List (ℚ × ℚ)) (idx : ℕ) : EvalRes :=
  ⟨fit.a, fit.sig_a_sq, fit.b, fit.sig_b_sq, evalR2 fit ms,
   sf (evalChi2 fit ms) (ms.length - 2), evalChi2 fit ms, ms.length - 2, idx⟩

/-! ## `_get_best_local_fit` (src/chamber/engine/analysis/service.py, lines 461-482)

The search grows a symmetric window `iloc[center - steps : center + steps + 1]`
around the center of the candidate sample until the relative slope uncertainty
meets the threshold.  The source guard `while center + steps + 1 <= len(sample)`
bounds the growth.  `steps` starts at `int(self._steps)` and grows by
`delta = int(steps)`s initial value each round; the engine construes
`self._steps = 1`, and the loop only terminates for a positive growth step,
recorded as the hypothesis `hd`. -/

/-- Result of the inner search: `crash` models a `ZeroDivisionError` escaping
`_ols_fit` (never caught by the source), `noFit` models `self._this_fit = None`,
and `found` carries the accepted fit, the accepted sub-window
(`self._this_sample`) and the `steps` value at acceptance. -/
inductive BestFit where
  | crash : BestFit
  | noFit : BestFit
  | found : FitRes → List (ℚ × ℚ) → ℕ → BestFit
  deriving DecidableEq, Repr

/-- `iloc[center - steps : center + steps + 1]` of the candidate sample.  The
truncated ℕ subtraction agrees with Python exactly when `steps ≤ center`,
which the loop guard guarantees for the odd-length samples the scan produces
(the source comment: "self._sample always has an odd length"). -/
def windowAt (sample : List (ℚ × ℚ)) (center steps : ℕ) : List (ℚ × ℚ) :=
  (sample.drop (center - steps)).take (center + steps + 1 - (center - steps))

/-- The loop of `_get_best_local_fit`.  The acceptance test
`fit['sig_b']/abs(fit['b']) <= self._error` is embedded in the squared form
`sig_b_sq <= err^2 * b^2`, equivalent over the reals by `sqrt_div_abs_le_iff`
(the source's `sig_b` is the square root of `sig_b_sq`, and `b /= 0` holds on
this branch). -/
def bestFitGo (err : ℚ) (sample : List (ℚ × ℚ)) (center delta : ℕ) (hd : 0 < delta)
    (steps : ℕ) : BestFit :=
  if center + steps + 1 ≤ sample.length then
    match olsFit (windowAt sample center steps) with
    | none => BestFit.crash
    | some fit =>
      if fit.b = 0 then bestFitGo err sample center delta hd (steps + delta)
      else if fit.sig_b_sq ≤ err ^ 2 * fit.b ^ 2 then
        BestFit.found fit (windowAt sample center steps) steps
      else bestFitGo err sample center delta hd (steps + delta)
  else BestFit.noFit
termination_by sample.length - steps
decreasing_by all_goals omega

/-! ### Structural facts about the inner search -/

theorem sigAt_ne_zero_of_mem (ms : List (ℚ × ℚ)) (hsig : ∀ p ∈ ms, p.2 ≠ 0) :
    ∀ i, i < ms.length → sigAt ms i ≠ 0 := by
  intro i hi
  rw [sigAt, List.getD_eq_getElem?_getD, List.getElem?_eq_getElem hi]
  exact hsig ms[i] (List.getElem_mem hi)

theorem windowAt_subset (sample : List (ℚ × ℚ)) (center steps : ℕ) :
    ∀ p ∈ windowAt sample center steps, p ∈ sample := by
  intro p hp
  exact List.drop_subset _ _ (List.take_subset _ _ hp)

theorem windowAt_length (sample : List (ℚ × ℚ)) (center steps : ℕ)
    (hodd : sample.length = 2 * center + 1) (hg : center + steps + 1 ≤ sample.length) :
    (windowAt sample center steps).length = 2 * steps + 1 := by
  rw [windowAt, List.length_take, List.length_drop]
  omega

/-- `_ols_fit` succeeds on every window the inner search examines: the window
has at least `2*1 + 1 = 3` points with distinct abscissae and nonzero sigmas,
so `Delta > 0`. -/
theorem olsFit_windowAt_isSome (sample : List (ℚ × ℚ)) (center steps : ℕ)
    (hst : 1 ≤ steps)
    (hodd : sample.length = 2 * center + 1) (hg : center + steps + 1 ≤ sample.length)
    (hsig : ∀ p ∈ sample, p.2 ≠ 0) :
    olsFit (windowAt sample center steps) ≠ none := by
  have hlen : 2 ≤ (windowAt sample center steps).length := by
    rw [windowAt_length sample center steps hodd hg]
    omega
  have hsig2 : ∀ i, i < (windowAt sample center steps).length →
      sigAt (windowAt sample center steps) i ≠ 0 := by
    apply sigAt_ne_zero_of_mem
    intro p hp
    exact hsig p (windowAt_subset sample center steps p hp)
  rw [olsFit_eq_some _ hlen hsig2]
  simp

/-- Everything the inner search guarantees about an accepted fit: the `steps`
value only grew, the accepted window is the symmetric sub-window at acceptance
time (of odd length `2*st + 1`, within the sample), its fit is the `_ols_fit`
output, the slope is nonzero and the (squared) acceptance test holds. -/
theorem bestFitGo_found_spec (err : ℚ) (sample : List (ℚ × ℚ)) (center delta : ℕ)
    (hd : 0 < delta) (hodd : sample.length = 2 * center + 1) :
    ∀ n steps fit win st, sample.length - steps ≤ n →
      bestFitGo err sample center delta hd steps = BestFit.found fit win st →
      steps ≤ st ∧ win = windowAt sample center st ∧ center + st + 1 ≤ sample.length ∧
        win.length = 2 * st + 1 ∧ olsFit win = some fit ∧ fit.b ≠ 0 ∧
        fit.sig_b_sq ≤ err ^ 2 * fit.b ^ 2 := by
  intro n
  induction n with
  | zero =>
    intro steps fit win st hm hres
    rw [bestFitGo] at hres
    rw [if_neg (by omega)] at hres
    exact absurd hres (by simp)
  | succ n ih =>
    intro steps fit win st hm hres
    rw [bestFitGo] at hres
    by_cases hg : center + steps + 1 ≤ sample.length
    · rw [if_pos hg] at hres
      rcases hfit : olsFit (windowAt sample center steps) with _ | fit0
      · rw [hfit] at hres
        simp only [] at hres
        exact absurd hres (by simp)
      rw [hfit] at hres
      simp only [] at hres
      by_cases hb : fit0.b = 0
      · rw [if_pos hb] at hres
        have hrest := ih (steps + delta) fit win st (by omega) hres
        exact ⟨by omega, hrest.2⟩
      · rw [if_neg hb] at hres
        by_cases hacc : fit0.sig_b_sq ≤ err ^ 2 * fit0.b ^ 2
        · rw [if_pos hacc] at hres
          obtain ⟨h1a, h1b, h1c⟩ : fit0 = fit ∧ windowAt sample center steps = win ∧
              steps = st := by
            cases hres
            exact ⟨rfl, rfl, rfl⟩
          subst h1a
          subst h1b
          subst h1c
          exact ⟨le_refl _, rfl, hg, windowAt_length sample center steps hodd hg, hfit,
            hb, hacc⟩
        · rw [if_neg hacc] at hres
          have hrest := ih (steps + delta) fit win st (by omega) hres
          exact ⟨by omega, hrest.2⟩
    · rw [if_neg hg] at hres
      exact absurd hres (by simp)

/-- The inner search never lets a `ZeroDivisionError` escape: every window it
examines has at least three points and nonzero sigmas, so `Delta > 0` and
`_ols_fit` always returns. -/
theorem bestFitGo_ne_crash (err : ℚ) (sample : List (ℚ × ℚ)) (center delta : ℕ)
    (hd : 0 < delta) (hodd : sample.length = 2 * center + 1)
    (hsig : ∀ p ∈ sample, p.2 ≠ 0) :
    ∀ n steps, 1 ≤ steps → sample.length - steps ≤ n →
      bestFitGo err sample center delta hd steps ≠ BestFit.crash := by
  intro n
  induction n with
  | zero =>
    intro steps hst hm
    rw [bestFitGo, if_neg (by omega)]
    simp
  | succ n ih =>
    intro steps hst hm
    rw [bestFitGo]
    by_cases hg : center + steps + 1 ≤ sample.length
    · rw [if_pos hg]
      rcases hfit : olsFit (windowAt sample center steps) with _ | fit0
      · exact absurd hfit (olsFit_windowAt_isSome sample center steps hst hodd hg hsig)
      · simp only []
        by_cases hb : fit0.b = 0
        · rw [if_pos hb]
          exact ih (steps + delta) (by omega) (by omega)
        · rw [if_neg hb]
          by_cases hacc : fit0.sig_b_sq ≤ err ^ 2 * fit0.b ^ 2
          · rw [if_pos hacc]
            simp
          · rw [if_neg hacc]
            exact ih (steps + delta) (by omega) (by omega)
    · rw [if_neg hg]
      simp

/-! ## The candidate sample (src/chamber/engine/analysis/service.py, lines 255-259)

`self._observations.loc[left:right, :]` with `left = 2*idx - N + 1` and
`right = 2*idx` on the monotonic integer index `0 .. N-1`: a pandas label-range
slice keeps exactly the rows whose label lies in `[left, right]`, both ends
inclusive, with out-of-range bounds clipped. -/

/-- Pandas `.loc[left:right]` on a frame indexed `0 .. len-1`: the rows whose
label `l` satisfies `left ≤ l ≤ right`. -/
def locSlice (ms : List (ℚ × ℚ)) (left right : ℤ) : List (ℚ × ℚ) :=
  ((List.range ms.length).filter
    (fun (l : ℕ) => decide (left ≤ (l : ℤ)) && decide ((l : ℤ) ≤ right))).filterMap
    (fun (l : ℕ) => ms[l]?)

/-- The candidate sample of one outer iteration of `_get_fits`:
`left = (2 * self._idx) - len(self._observations) + 1`, `right = 2 * self._idx`. -/
def candidateSample (ms : List (ℚ × ℚ)) (idx : ℕ) : List (ℚ × ℚ) :=
  locSlice ms (2 * (idx : ℤ) - ms.length + 1) (2 * (idx : ℤ))

theorem filter_range_bounds (lo hi : ℕ) :
    ∀ n, (List.range n).filter (fun l => decide (lo ≤ l) && decide (l ≤ hi)) =
      List.range' lo (min n (hi + 1) - lo) := by
  intro n
  induction n with
  | zero => simp
  | succ n ih =>
    rw [List.range_succ, List.filter_append, ih]
    rcases Nat.lt_or_ge n lo with hcase | hcase
    · have hmin : min (n + 1) (hi + 1) - lo = 0 := by omega
      have hmin2 : min n (hi + 1) - lo = 0 := by omega
      rw [hmin, hmin2]
      simp only [List.filter_cons]
      have : ¬ (lo ≤ n) := by omega
      simp [this]
    · rcases Nat.lt_or_ge hi n with hcase2 | hcase2
      · have hmin : min (n + 1) (hi + 1) = hi + 1 := by omega
        have hmin2 : min n (hi + 1) = hi + 1 := by omega
        rw [hmin, hmin2]
        simp only [List.filter_cons]
        have : ¬ (n ≤ hi) := by omega
        simp [this]
      · have hmin : min (n + 1) (hi + 1) - lo = (min n (hi + 1) - lo) + 1 := by omega
        rw [hmin, List.range'_concat]
        have hn : lo + 1 * (min n (hi + 1) - lo) = n := by omega
        rw [hn]
        simp [List.filter_cons, hcase, hcase2]

theorem filterMap_getElem_range' (ms : List (ℚ × ℚ)) :
    ∀ c lo, lo + c ≤ ms.length →
      (List.range' lo c).filterMap (fun l => ms[l]?) = (ms.drop lo).take c := by
  intro c
  induction c with
  | zero => simp
  | succ c ih =>
    intro lo h
    have hlo : lo < ms.length := by omega
    rw [List.range'_succ, List.filterMap_cons, List.getElem?_eq_getElem hlo]
    rw [List.drop_eq_getElem_cons hlo, List.take_succ_cons]
    rw [ih (lo + 1) (by omega)]

/-- Closed form of the candidate sample: the contiguous slice of the series
from position `max 0 (2*idx - N + 1)` to position `min (N - 1) (2*idx)`,
both inclusive (here in truncated ℕ arithmetic: `lo = 2*idx + 1 - N`). -/
theorem candidateSample_eq (ms : List (ℚ × ℚ)) (idx : ℕ) (hidx : idx < ms.length) :
    candidateSample ms idx =
      (ms.drop (2 * idx + 1 - ms.length)).take
        (min (ms.length - 1) (2 * idx) + 1 - (2 * idx + 1 - ms.length)) := by
  have hcond : ∀ l : ℕ,
      (decide ((2 * (idx : ℤ) - ms.length + 1) ≤ (l : ℤ)) && decide ((l : ℤ) ≤ 2 * (idx : ℤ)))
      = (decide (2 * idx + 1 - ms.length ≤ l) && decide (l ≤ 2 * idx)) := by
    intro l
    rw [← Bool.decide_and, ← Bool.decide_and, decide_eq_decide]
    omega
  rw [candidateSample, locSlice]
  have heq : (List.range ms.length).filter
      (fun (l : ℕ) => decide ((2 * (idx : ℤ) - ms.length + 1) ≤ (l : ℤ)) &&
        decide ((l : ℤ) ≤ 2 * (idx : ℤ))) =
      (List.range ms.length).filter
      (fun (l : ℕ) => decide (2 * idx + 1 - ms.length ≤ l) && decide (l ≤ 2 * idx)) := by
    apply List.filter_congr
    intro l _
    exact hcond l
  rw [heq, filter_range_bounds, filterMap_getElem_range' ms _ _ (by omega)]
  have : min ms.length (2 * idx + 1) - (2 * idx + 1 - ms.length) =
      min (ms.length - 1) (2 * idx) + 1 - (2 * idx + 1 - ms.length) := by omega
  rw [this]

/-- The candidate sample always has odd length `2*min(idx, N-1-idx) + 1`:
as large as possible within the series bounds while symmetric about `idx`. -/
theorem candidateSample_length (ms : List (ℚ × ℚ)) (idx : ℕ) (hidx : idx < ms.length) :
    (candidateSample ms idx).length = 2 * min idx (ms.length - 1 - idx) + 1 := by
  rw [candidateSample_eq ms idx hidx]
  rw [List.length_take, List.length_drop]
  omega

/-- The series element at position `idx` sits at the center of the candidate
sample. -/
theorem candidateSample_center (ms : List (ℚ × ℚ)) (idx : ℕ) (hidx : idx < ms.length) :
    (candidateSample ms idx)[(candidateSample ms idx).length / 2]? = ms[idx]? := by
  rw [candidateSample_length ms idx hidx, candidateSample_eq ms idx hidx]
  rw [List.getElem?_take, List.getElem?_drop]
  have harith : (2 * min idx (ms.length - 1 - idx) + 1) / 2 = min idx (ms.length - 1 - idx) := by
    omega
  rw [harith, if_pos (by omega)]
  have : 2 * idx + 1 - ms.length + min idx (ms.length - 1 - idx) = idx := by omega
  rw [this]

/-! ## `_get_fits` (src/chamber/engine/analysis/service.py, lines 252-272)

Outer scan: while `idx < N - 2`, slice the candidate sample, run the inner
search with initial `steps = delta` and `center = len(sample) // 2`, append the
evaluated fit and advance by `nu + 2` on acceptance, or advance by the sample
length when no fit was found.  An uncaught `ZeroDivisionError` from `_ols_fit`
would abort the whole scan; it is modelled as `Except.error ()`. -/

def getFitsGo (sf : ℚ → ℕ → ℚ) (err : ℚ) (delta : ℕ) (hd : 0 < delta)
    (ms : List (ℚ × ℚ)) (idx : ℕ) (acc : List EvalRes) : Except Unit (List EvalRes) :=
  if _h : idx < ms.length - 2 then
    match bestFitGo err (candidateSample ms idx) ((candidateSample ms idx).length / 2)
        delta hd delta with
    | BestFit.crash => Except.error ()
    | BestFit.noFit => getFitsGo sf err delta hd ms (idx + (candidateSample ms idx).length) acc
    | BestFit.found fit win _ =>
        getFitsGo sf err delta hd ms (idx + ((evaluateFit sf fit win idx).nu + 2))
          (acc ++ [evaluateFit sf fit win idx])
  else Except.ok acc
termination_by ms.length - idx
decreasing_by
  · have hlen := candidateSample_length ms idx (by omega)
    omega
  · omega

/-- The whole scan of `_get_fits`: the engine starts at `self._idx = 1` with
`self._fits = []`. -/
def getFits (sf : ℚ → ℕ → ℚ) (err : ℚ) (delta : ℕ) (hd : 0 < delta)
    (ms : List (ℚ × ℚ)) : Except Unit (List EvalRes) :=
  getFitsGo sf err delta hd ms 1 []

/-- The engine's error threshold `self._error = 0.01`. -/
def defaultError : ℚ := 1 / 100

/-- The engine's window growth step `self._steps = 1`. -/
def defaultSteps : ℕ := 1

/-- The candidate sample has odd length, so its pandas `len // 2` center `c`
satisfies `length = 2*c + 1`. -/
theorem candidateSample_odd (ms : List (ℚ × ℚ)) (idx : ℕ) (hidx : idx < ms.length) :
    (candidateSample ms idx).length = 2 * ((candidateSample ms idx).length / 2) + 1 := by
  have h := candidateSample_length ms idx hidx
  omega

/-- Scan invariant: every fit the scan appends (beyond those already in `acc`)
comes from an accepted window of the inner search at scan position `ev.idx`,
and inherits all the acceptance facts. -/
theorem getFitsGo_inv (sf : ℚ → ℕ → ℚ) (err : ℚ) (delta : ℕ) (hd : 0 < delta)
    (ms : List (ℚ × ℚ)) :
    ∀ n idx acc res, ms.length - idx ≤ n →
      getFitsGo sf err delta hd ms idx acc = Except.ok res →
      ∀ ev, ev ∈ res → ev ∉ acc →
        ∃ fit win st,
          bestFitGo err (candidateSample ms ev.idx)
            ((candidateSample ms ev.idx).length / 2) delta hd delta =
            BestFit.found fit win st ∧
          ev = evaluateFit sf fit win ev.idx ∧ ev.idx < ms.length - 2 ∧
          win.length = 2 * st + 1 ∧ delta ≤ st ∧ olsFit win = some fit := by
  intro n
  induction n with
  | zero =>
    intro idx acc res hm hok ev hev hnacc
    rw [getFitsGo, dif_neg (by omega)] at hok
    cases hok
    exact absurd hev hnacc
  | succ n ih =>
    intro idx acc res hm hok ev hev hnacc
    rw [getFitsGo] at hok
    by_cases hg : idx < ms.length - 2
    · rw [dif_pos hg] at hok
      have hlen := candidateSample_length ms idx (by omega)
      rcases hbf : bestFitGo err (candidateSample ms idx)
          ((candidateSample ms idx).length / 2) delta hd delta with _ | _ | ⟨fit, win, st⟩ <;>
        rw [hbf] at hok <;> simp only [] at hok
      · exact absurd hok (by simp)
      · exact ih (idx + (candidateSample ms idx).length) acc res (by omega) hok ev hev hnacc
      · by_cases hev0 : ev ∈ acc ++ [evaluateFit sf fit win idx]
        · have hev1 : ev = evaluateFit sf fit win idx := by
            rcases List.mem_append.mp hev0 with hc | hc
            · exact absurd hc hnacc
            · simpa using hc
          have hspec := bestFitGo_found_spec err (candidateSample ms idx)
            ((candidateSample ms idx).length / 2) delta hd
            (candidateSample_odd ms idx (by omega)) ((candidateSample ms idx).length) delta
            fit win st (by omega) hbf
          have hidxev : ev.idx = idx := by rw [hev1]; rfl
          refine ⟨fit, win, st, ?_, ?_, ?_, ?_, ?_, ?_⟩
          · rw [hidxev]; exact hbf
          · rw [hidxev]; exact hev1
          · rw [hidxev]; exact hg
          · exact hspec.2.2.2.1
          · exact hspec.1
          · exact hspec.2.2.2.2.1
        · exact ih (idx + ((evaluateFit sf fit win idx).nu + 2))
            (acc ++ [evaluateFit sf fit win idx]) res (by omega) hok ev hev hev0
    · rw [dif_neg hg] at hok
      cases hok
      exact absurd hev hnacc

/-- Equivalence of the source's acceptance test `(S/Delta)**0.5 / abs(b) <= err`
with the squared form used by the executable embedding. -/
theorem sqrt_div_abs_le_iff (q b err : ℚ) (hq : 0 ≤ q) (hb : b ≠ 0) (he : 0 ≤ err) :
    Real.sqrt (q : ℝ) / |(b : ℝ)| ≤ (err : ℝ) ↔ q ≤ err ^ 2 * b ^ 2 := by
  have hb0 : (0 : ℝ) < |(b : ℝ)| := by
    simp only [abs_pos, ne_eq, Rat.cast_eq_zero]
    exact hb
  have he' : (0 : ℝ) ≤ (err : ℝ) := by exact_mod_cast he
  have hq' : (0 : ℝ) ≤ (q : ℝ) := by exact_mod_cast hq
  have hprod : (0 : ℝ) ≤ (err : ℝ) * |(b : ℝ)| := mul_nonneg he' hb0.le
  have hsq : ((err : ℝ) * |(b : ℝ)|) ^ 2 = (err : ℝ) ^ 2 * (b : ℝ) ^ 2 := by
    rw [mul_pow, sq_abs]
  rw [div_le_iff₀ hb0]
  constructor
  · intro h
    have h2 : Real.sqrt (q : ℝ) ^ 2 ≤ ((err : ℝ) * |(b : ℝ)|) ^ 2 := by
      have hs : 0 ≤ Real.sqrt (q : ℝ) := Real.sqrt_nonneg _
      nlinarith
    rw [Real.sq_sqrt hq', hsq] at h2
    exact_mod_cast h2
  · intro h
    have h2 : (q : ℝ) ≤ (err : ℝ) ^ 2 * (b : ℝ) ^ 2 := by exact_mod_cast h
    have h3 : Real.sqrt (q : ℝ) ≤ Real.sqrt ((err : ℝ) ^ 2 * (b : ℝ) ^ 2) :=
      Real.sqrt_le_sqrt h2
    have h4 : Real.sqrt ((err : ℝ) ^ 2 * (b : ℝ) ^ 2) = (err : ℝ) * |(b : ℝ)| := by
      rw [← hsq]
      exact Real.sqrt_sq hprod
    rw [h4] at h3
    exact h3

/-! ### Facts about a successful `_ols_fit` result -/

theorem olsS_nonneg (ms : List (ℚ × ℚ)) : 0 ≤ olsS ms := by
  apply sumIdx_nonneg
  intro i _
  exact div_nonneg zero_le_one (sq_nonneg _)

theorem olsDelta_zero_of_short (ms : List (ℚ × ℚ)) (hlen : ms.length < 2) :
    olsDelta ms = 0 := by
  match ms with
  | [] => simp [olsDelta, olsS, olsSx, olsSxx, sumIdx]
  | [p] =>
    simp [olsDelta, olsS, olsSx, olsSxx, sumIdx, List.range_succ]
  | p :: q :: r => simp at hlen; omega

theorem olsFit_some_facts (ms : List (ℚ × ℚ)) (fit : FitRes) (h : olsFit ms = some fit) :
    0 < olsDelta ms ∧ 2 ≤ ms.length ∧
      fit = ⟨(olsSxx ms * olsSy ms - olsSx ms * olsSxy ms) / olsDelta ms,
        olsSxx ms / olsDelta ms,
        (olsS ms * olsSxy ms - olsSx ms * olsSy ms) / olsDelta ms,
        olsS ms / olsDelta ms⟩ := by
  rw [olsFit] at h
  by_cases h1 : anySigZero ms = true
  · rw [if_pos h1] at h
    exact absurd h (by simp)
  · rw [if_neg h1] at h
    by_cases h2 : olsDelta ms = 0
    · rw [if_pos h2] at h
      exact absurd h (by simp)
    · rw [if_neg h2] at h
      have hlen : 2 ≤ ms.length := by
        by_contra hc
        exact h2 (olsDelta_zero_of_short ms (by omega))
      have hsig : ∀ i, i < ms.length → sigAt ms i ≠ 0 := by
        intro i hi
        have h1b : anySigZero ms = false := by simpa using h1
        rw [anySigZero, List.any_eq_false] at h1b
        have := h1b i (List.mem_range.mpr hi)
        simpa using this
      refine ⟨olsDelta_pos ms hlen hsig, hlen, ?_⟩
      exact (Option.some.injEq _ _).mp h.symm

theorem olsFit_sig_b_sq_nonneg (ms : List (ℚ × ℚ)) (fit : FitRes)
    (h : olsFit ms = some fit) : 0 ≤ fit.sig_b_sq := by
  obtain ⟨hd, _, hfit⟩ := olsFit_some_facts ms fit h
  rw [hfit]
  exact div_nonneg (olsS_nonneg ms) (le_of_lt hd)

/-- **C1.**  Every fit the extractor's scan appends to its result list comes
from an accepted sub-window of at least 3 points, has degrees of freedom
`nu = window length - 2` (hence `nu ≥ 1`), and satisfies the relative slope
uncertainty bound `sig_b / |b| ≤ err` (the source's `(S/Delta)**0.5` being the
square root of the embedded `sig_b_sq`), where `err` is the configured error
threshold (`self._error = 0.01` by default). -/
theorem accepted_fits_meet_threshold (sf : ℚ → ℕ → ℚ) (err : ℚ) (delta : ℕ)
    (hd : 0 < delta) (ms : List (ℚ × ℚ)) (res : List EvalRes)
    (herr : 0 ≤ err) (hok : getFits sf err delta hd ms = Except.ok res) :
    ∀ ev ∈ res, ∃ fit win st,
      bestFitGo err (candidateSample ms ev.idx) ((candidateSample ms ev.idx).length / 2)
        delta hd delta = BestFit.found fit win st ∧
      ev = evaluateFit sf fit win ev.idx ∧
      3 ≤ win.length ∧ ev.nu = win.length - 2 ∧ 1 ≤ ev.nu ∧
      Real.sqrt (ev.sig_b_sq : ℝ) / |(ev.b : ℝ)| ≤ (err : ℝ) := by
  intro ev hev
  obtain ⟨fit, win, st, hbf, hevdef, hidx, hwl, hds, hols⟩ :=
    getFitsGo_inv sf err delta hd ms ms.length 1 [] res (by omega) hok ev hev (by simp)
  have hspec := bestFitGo_found_spec err (candidateSample ms ev.idx)
    ((candidateSample ms ev.idx).length / 2) delta hd
    (candidateSample_odd ms ev.idx (by omega)) ((candidateSample ms ev.idx).length)
    delta fit win st (by omega) hbf
  have hwin3 : 3 ≤ win.length := by omega
  have hnu : ev.nu = win.length - 2 := by rw [hevdef]; rfl
  have hb : ev.b = fit.b := by rw [hevdef]; rfl
  have hsb : ev.sig_b_sq = fit.sig_b_sq := by rw [hevdef]; rfl
  refine ⟨fit, win, st, hbf, hevdef, hwin3, hnu, by omega, ?_⟩
  rw [hb, hsb]
  rw [sqrt_div_abs_le_iff fit.sig_b_sq fit.b err (olsFit_sig_b_sq_nonneg win fit hols)
    hspec.2.2.2.2.2.1 herr]
  exact hspec.2.2.2.2.2.2

/-! ### A concrete scan used by the witnesses: six exactly linear mass points -/

/-- Six observations with `y = i`, unit sigma. -/
def wMs : List (ℚ × ℚ) := [(0, 1), (1, 1), (2, 1), (3, 1), (4, 1), (5, 1)]

/-- An opaque stand-in for `scipy.stats.chi2.sf` in the witnesses. -/
def wSf : ℚ → ℕ → ℚ := fun _ _ => 0

/-- The accepted fit of the witness scan. -/
def wFit : FitRes := ⟨0, 5/6, 1, 1/2⟩

/-- The evaluated fit of the witness scan. -/
def wEv : EvalRes := ⟨0, 5/6, 1, 1/2, 1, 0, 0, 1, 1⟩

theorem wSample_eq : candidateSample wMs 1 = [(0, 1), (1, 1), (2, 1)] := by rfl

theorem wOls_eq : olsFit [(0, 1), (1, 1), (2, 1)] = some wFit := by
  have hz : anySigZero [((0 : ℚ), (1 : ℚ)), (1, 1), (2, 1)] = false := by
    norm_num [anySigZero, sigAt, List.range_succ, List.getD]
  have hS : olsS [((0 : ℚ), (1 : ℚ)), (1, 1), (2, 1)] = 3 := by
    norm_num [olsS, sumIdx, sigAt, List.range_succ, List.getD]
  have hSx : olsSx [((0 : ℚ), (1 : ℚ)), (1, 1), (2, 1)] = 3 := by
    norm_num [olsSx, sumIdx, sigAt, List.range_succ, List.getD]
  have hSy : olsSy [((0 : ℚ), (1 : ℚ)), (1, 1), (2, 1)] = 3 := by
    norm_num [olsSy, sumIdx, sigAt, yAt, List.range_succ, List.getD]
  have hSxx : olsSxx [((0 : ℚ), (1 : ℚ)), (1, 1), (2, 1)] = 5 := by
    norm_num [olsSxx, sumIdx, sigAt, List.range_succ, List.getD]
  have hSxy : olsSxy [((0 : ℚ), (1 : ℚ)), (1, 1), (2, 1)] = 5 := by
    norm_num [olsSxy, sumIdx, sigAt, yAt, List.range_succ, List.getD]
  have hD : olsDelta [((0 : ℚ), (1 : ℚ)), (1, 1), (2, 1)] = 6 := by
    rw [olsDelta, hS, hSx, hSxx]
    norm_num
  rw [olsFit, hz, if_neg (by simp), hD, hS, hSx, hSy, hSxx, hSxy]
  norm_num [wFit]

theorem wBest_eq : bestFitGo 1 [(0, 1), (1, 1), (2, 1)] 1 1 one_pos 1 =
    BestFit.found wFit [(0, 1), (1, 1), (2, 1)] 1 := by
  rw [bestFitGo, if_pos (by norm_num)]
  have hw : windowAt [((0 : ℚ), (1 : ℚ)), (1, 1), (2, 1)] 1 1 = [(0, 1), (1, 1), (2, 1)] := rfl
  rw [hw, wOls_eq]
  norm_num [wFit]

theorem wEval_eq : evaluateFit wSf wFit [(0, 1), (1, 1), (2, 1)] 1 = wEv := by
  have hchi : evalChi2 wFit [((0 : ℚ), (1 : ℚ)), (1, 1), (2, 1)] = 0 := by
    norm_num [evalChi2, sumIdx, sigAt, yAt, wFit, List.range_succ, List.getD]
  have hbar : ybar [((0 : ℚ), (1 : ℚ)), (1, 1), (2, 1)] = 1 := by
    norm_num [ybar, sumIdx, yAt, List.range_succ, List.getD]
  have hres : evalSSres wFit [((0 : ℚ), (1 : ℚ)), (1, 1), (2, 1)] = 0 := by
    norm_num [evalSSres, sumIdx, yAt, wFit, List.range_succ, List.getD]
  have htot : evalSStot [((0 : ℚ), (1 : ℚ)), (1, 1), (2, 1)] = 2 := by
    rw [evalSStot]
    rw [hbar]
    norm_num [sumIdx, yAt, List.range_succ, List.getD]
  rw [evaluateFit, evalR2, hchi, hres, htot]
  norm_num [wFit, wEv, wSf]

theorem wScan_eq : getFits wSf 1 1 one_pos wMs = Except.ok [wEv] := by
  rw [getFits, getFitsGo, dif_pos (by norm_num [wMs])]
  rw [wSample_eq]
  have hc : ([((0 : ℚ), (1 : ℚ)), (1, 1), (2, 1)].length) / 2 = 1 := by norm_num
  rw [hc, wBest_eq]
  simp only []
  rw [wEval_eq]
  have hnu : wEv.nu + 2 = 3 := by norm_num [wEv]
  rw [hnu]
  rw [getFitsGo, dif_neg (by norm_num [wMs])]
  simp

/-- **C2.**  The scan pointer strictly increases after every outer iteration:
by `nu + 2` — which equals the accepted window's length — on acceptance, and by
the candidate sample's length when no fit is found; and the loop body is only
entered under the guard `idx < N - 2`, exiting with the accumulated fits
otherwise.  (Termination of both loops is witnessed by `getFitsGo` and
`bestFitGo` being total functions, defined by recursion on `N - idx` and
`len(sample) - steps` respectively.) -/
theorem scan_pointer_strictly_increases (sf : ℚ → ℕ → ℚ) (err : ℚ) (delta : ℕ)
    (hd : 0 < delta) (ms : List (ℚ × ℚ)) (idx : ℕ) (acc : List EvalRes) :
    (∀ fit win st, idx < ms.length - 2 →
      bestFitGo err (candidateSample ms idx) ((candidateSample ms idx).length / 2)
          delta hd delta = BestFit.found fit win st →
      getFitsGo sf err delta hd ms idx acc =
        getFitsGo sf err delta hd ms (idx + ((evaluateFit sf fit win idx).nu + 2))
          (acc ++ [evaluateFit sf fit win idx]) ∧
      (evaluateFit sf fit win idx).nu + 2 = win.length ∧
      idx < idx + ((evaluateFit sf fit win idx).nu + 2)) ∧
    (idx < ms.length - 2 →
      bestFitGo err (candidateSample ms idx) ((candidateSample ms idx).length / 2)
          delta hd delta = BestFit.noFit →
      getFitsGo sf err delta hd ms idx acc =
        getFitsGo sf err delta hd ms (idx + (candidateSample ms idx).length) acc ∧
      idx < idx + (candidateSample ms idx).length) ∧
    (¬ idx < ms.length - 2 → getFitsGo sf err delta hd ms idx acc = Except.ok acc) := by
  refine ⟨?_, ?_, ?_⟩
  · intro fit win st hg hbf
    have hspec := bestFitGo_found_spec err (candidateSample ms idx)
      ((candidateSample ms idx).length / 2) delta hd
      (candidateSample_odd ms idx (by omega)) ((candidateSample ms idx).length)
      delta fit win st (by omega) hbf
    have hnu : (evaluateFit sf fit win idx).nu = win.length - 2 := rfl
    refine ⟨?_, by omega, by omega⟩
    rw [getFitsGo, dif_pos hg, hbf]
  · intro hg hbf
    have hlen := candidateSample_length ms idx (by omega)
    refine ⟨?_, by omega⟩
    rw [getFitsGo, dif_pos hg, hbf]
  · intro hg
    rw [getFitsGo, dif_neg hg]

/-- Witness for C2 at the concrete witness scan (acceptance and guard-exit
cases exercised at `idx = 1` and `idx = 4`). -/
theorem scan_pointer_strictly_increases_witness :
    ((1 : ℕ) < wMs.length - 2 ∧
      bestFitGo 1 (candidateSample wMs 1) ((candidateSample wMs 1).length / 2) 1 one_pos 1 =
        BestFit.found wFit [(0, 1), (1, 1), (2, 1)] 1 ∧
      getFitsGo wSf 1 1 one_pos wMs 1 [] =
        getFitsGo wSf 1 1 one_pos wMs (1 + ((evaluateFit wSf wFit [(0, 1), (1, 1), (2, 1)] 1).nu + 2))
          ([] ++ [evaluateFit wSf wFit [(0, 1), (1, 1), (2, 1)] 1]) ∧
      (evaluateFit wSf wFit [(0, 1), (1, 1), (2, 1)] 1).nu + 2 =
        ([((0 : ℚ), (1 : ℚ)), (1, 1), (2, 1)] : List (ℚ × ℚ)).length ∧
      1 < 1 + ((evaluateFit wSf wFit [(0, 1), (1, 1), (2, 1)] 1).nu + 2)) ∧
    (¬ (4 : ℕ) < wMs.length - 2 ∧ getFitsGo wSf 1 1 one_pos wMs 4 [wEv] = Except.ok [wEv]) := by
  have hbf : bestFitGo 1 (candidateSample wMs 1) ((candidateSample wMs 1).length / 2)
      1 one_pos 1 = BestFit.found wFit [(0, 1), (1, 1), (2, 1)] 1 := by
    rw [wSample_eq]
    have hc : ([((0 : ℚ), (1 : ℚ)), (1, 1), (2, 1)].length) / 2 = 1 := by norm_num
    rw [hc, wBest_eq]
  have hg1 : (1 : ℕ) < wMs.length - 2 := by norm_num [wMs]
  have hg4 : ¬ (4 : ℕ) < wMs.length - 2 := by norm_num [wMs]
  have hmain := scan_pointer_strictly_increases wSf 1 1 one_pos wMs 1 []
  have hmain4 := scan_pointer_strictly_increases wSf 1 1 one_pos wMs 4 [wEv]
  exact ⟨⟨hg1, hbf,
    (hmain.1 wFit [(0, 1), (1, 1), (2, 1)] 1 hg1 hbf).1,
    (hmain.1 wFit [(0, 1), (1, 1), (2, 1)] 1 hg1 hbf).2.1,
    (hmain.1 wFit [(0, 1), (1, 1), (2, 1)] 1 hg1 hbf).2.2⟩,
    hg4, hmain4.2.2 hg4⟩

/-- Witness for C1: the concrete scan over `wMs` accepts exactly one window and
its evaluated fit satisfies every invariant of the claim. -/
theorem accepted_fits_meet_threshold_witness :
    (0 : ℚ) ≤ 1 ∧ getFits wSf 1 1 one_pos wMs = Except.ok [wEv] ∧
    (∀ ev ∈ [wEv], ∃ fit win st,
      bestFitGo 1 (candidateSample wMs ev.idx) ((candidateSample wMs ev.idx).length / 2)
        1 one_pos 1 = BestFit.found fit win st ∧
      ev = evaluateFit wSf fit win ev.idx ∧
      3 ≤ win.length ∧ ev.nu = win.length - 2 ∧ 1 ≤ ev.nu ∧
      Real.sqrt (ev.sig_b_sq : ℝ) / |(ev.b : ℝ)| ≤ ((1 : ℚ) : ℝ)) :=
  ⟨by norm_num, wScan_eq,
    accepted_fits_meet_threshold wSf 1 1 one_pos wMs [wEv] (by norm_num) wScan_eq⟩

/-- **C4.**  A zero weighted-least-squares denominator `Delta` makes the
regression signal (a `ZeroDivisionError`, modelled as `none`) instead of
silently dividing; within the extractor the degenerate case never arises —
every examined window has at least three distinct abscissae and nonzero
sigmas, so no such failure ever reaches the scan — and the zero-slope
degeneracy is recovered locally by widening the search window
(`steps += delta`) and retrying. -/
theorem degeneracy_signalled_and_absorbed :
    (∀ ms : List (ℚ × ℚ), olsDelta ms = 0 → olsFit ms = none) ∧
    (∀ (err : ℚ) (sample : List (ℚ × ℚ)) (center delta : ℕ) (hd : 0 < delta) (steps : ℕ),
      sample.length = 2 * center + 1 → (∀ p ∈ sample, p.2 ≠ 0) → 1 ≤ steps →
      bestFitGo err sample center delta hd steps ≠ BestFit.crash) ∧
    (∀ (err : ℚ) (sample : List (ℚ × ℚ)) (center delta : ℕ) (hd : 0 < delta) (steps : ℕ)
      (fit : FitRes),
      center + steps + 1 ≤ sample.length →
      olsFit (windowAt sample center steps) = some fit → fit.b = 0 →
      bestFitGo err sample center delta hd steps =
        bestFitGo err sample center delta hd (steps + delta)) := by
  refine ⟨?_, ?_, ?_⟩
  · intro ms hdel
    rw [olsFit]
    by_cases h1 : anySigZero ms = true
    · rw [if_pos h1]
    · rw [if_neg h1, if_pos hdel]
  · intro err sample center delta hd steps hodd hsig hst
    exact bestFitGo_ne_crash err sample center delta hd hodd hsig sample.length steps hst
      (by omega)
  · intro err sample center delta hd steps fit hg hfit hb
    rw [bestFitGo, if_pos hg, hfit]
    simp only []
    rw [if_pos hb]

/-- Witness for C4: a one-point series has `Delta = 0` and `_ols_fit` signals;
the concrete witness sample never crashes; a constant-mass window has zero
slope and the search widens. -/
theorem degeneracy_signalled_and_absorbed_witness :
    (olsDelta [((3 : ℚ), (1 : ℚ))] = 0 ∧ olsFit [((3 : ℚ), (1 : ℚ))] = none) ∧
    (bestFitGo 1 [(0, 1), (1, 1), (2, 1)] 1 1 one_pos 1 ≠ BestFit.crash) ∧
    (olsFit (windowAt [((1 : ℚ), (1 : ℚ)), (1, 1), (1, 1)] 1 1) = some ⟨1, 5/6, 0, 1/2⟩ ∧
      bestFitGo 1 [((1 : ℚ), (1 : ℚ)), (1, 1), (1, 1)] 1 1 one_pos 1 =
        bestFitGo 1 [((1 : ℚ), (1 : ℚ)), (1, 1), (1, 1)] 1 1 one_pos 2) := by
  have hdel : olsDelta [((3 : ℚ), (1 : ℚ))] = 0 :=
    olsDelta_zero_of_short _ (by norm_num)
  have hwin : windowAt [((1 : ℚ), (1 : ℚ)), (1, 1), (1, 1)] 1 1 =
      [((1 : ℚ), (1 : ℚ)), (1, 1), (1, 1)] := rfl
  have hfit0 : olsFit [((1 : ℚ), (1 : ℚ)), (1, 1), (1, 1)] = some ⟨1, 5/6, 0, 1/2⟩ := by
    have hz : anySigZero [((1 : ℚ), (1 : ℚ)), (1, 1), (1, 1)] = false := by
      norm_num [anySigZero, sigAt, List.range_succ, List.getD]
    have hS : olsS [((1 : ℚ), (1 : ℚ)), (1, 1), (1, 1)] = 3 := by
      norm_num [olsS, sumIdx, sigAt, List.range_succ, List.getD]
    have hSx : olsSx [((1 : ℚ), (1 : ℚ)), (1, 1), (1, 1)] = 3 := by
      norm_num [olsSx, sumIdx, sigAt, List.range_succ, List.getD]
    have hSy : olsSy [((1 : ℚ), (1 : ℚ)), (1, 1), (1, 1)] = 3 := by
      norm_num [olsSy, sumIdx, sigAt, yAt, List.range_succ, List.getD]
    have hSxx : olsSxx [((1 : ℚ), (1 : ℚ)), (1, 1), (1, 1)] = 5 := by
      norm_num [olsSxx, sumIdx, sigAt, List.range_succ, List.getD]
    have hSxy : olsSxy [((1 : ℚ), (1 : ℚ)), (1, 1), (1, 1)] = 3 := by
      norm_num [olsSxy, sumIdx, sigAt, yAt, List.range_succ, List.getD]
    have hD : olsDelta [((1 : ℚ), (1 : ℚ)), (1, 1), (1, 1)] = 6 := by
      rw [olsDelta, hS, hSx, hSxx]
      norm_num
    rw [olsFit, hz, if_neg (by simp), hD, hS, hSx, hSy, hSxx, hSxy]
    norm_num
  refine ⟨⟨hdel, degeneracy_signalled_and_absorbed.1 _ hdel⟩, ?_, ?_⟩
  · exact degeneracy_signalled_and_absorbed.2.1 1 [(0, 1), (1, 1), (2, 1)] 1 1 one_pos 1
      (by norm_num) (by norm_num) (by norm_num)
  · refine ⟨hwin ▸ hfit0, ?_⟩
    exact degeneracy_signalled_and_absorbed.2.2 1 [((1 : ℚ), (1 : ℚ)), (1, 1), (1, 1)]
      1 1 one_pos 1 ⟨1, 5/6, 0, 1/2⟩ (by norm_num) (hwin ▸ hfit0) rfl

/-- **C5.**  At every scan position `idx` within the series, the candidate
sample is the contiguous slice from `max(0, 2*idx - N + 1)` to
`min(N - 1, 2*idx)` inclusive (ℕ-truncated subtraction realizes the `max 0`
clip), of odd length `2*min(idx, N-1-idx) + 1` with the series element at
position `idx` at its center. -/
theorem candidate_sample_spec (ms : List (ℚ × ℚ)) (idx : ℕ) (hidx : idx < ms.length) :
    candidateSample ms idx =
      (ms.drop (2 * idx + 1 - ms.length)).take
        (min (ms.length - 1) (2 * idx) + 1 - (2 * idx + 1 - ms.length)) ∧
    (candidateSample ms idx).length = 2 * min idx (ms.length - 1 - idx) + 1 ∧
    Odd (candidateSample ms idx).length ∧
    (candidateSample ms idx)[(candidateSample ms idx).length / 2]? = ms[idx]? :=
  ⟨candidateSample_eq ms idx hidx, candidateSample_length ms idx hidx,
   ⟨min idx (ms.length - 1 - idx), by rw [candidateSample_length ms idx hidx]⟩,
   candidateSample_center ms idx hidx⟩

/-- Witness for C5 at the concrete series and `idx = 1`. -/
theorem candidate_sample_spec_witness :
    (1 : ℕ) < wMs.length ∧
    (candidateSample wMs 1 =
      (wMs.drop (2 * 1 + 1 - wMs.length)).take
        (min (wMs.length - 1) (2 * 1) + 1 - (2 * 1 + 1 - wMs.length)) ∧
    (candidateSample wMs 1).length = 2 * min 1 (wMs.length - 1 - 1) + 1 ∧
    Odd (candidateSample wMs 1).length ∧
    (candidateSample wMs 1)[(candidateSample wMs 1).length / 2]? = wMs[1]?) :=
  ⟨by norm_num [wMs], candidate_sample_spec wMs 1 (by norm_num [wMs])⟩

/-! ## C3: the classical weighted-least-squares formulas (spec §4.2)

The following definitions transcribe the spec's formulas (`wᵢ = 1/σᵢ²`,
`S = Σwᵢ`, `Sx = Σwᵢxᵢ`, ..., `a = (Sxx·Sy − Sx·Sxy)/Δ`, `σₐ = √(Sxx/Δ)`,
`R² = 1 − SSres/SStot` about the mean of `y`) for abscissae `x = 0..n-1`; the
claim compares them with the source embedding `olsFit`/`evaluateFit`. -/

def specW (sig : ℕ → ℚ) (i : ℕ) : ℚ := 1 / sig i ^ 2

def specS (sig : ℕ → ℚ) (n : ℕ) : ℚ := ∑ i ∈ Finset.range n, specW sig i

def specSx (sig : ℕ → ℚ) (n : ℕ) : ℚ := ∑ i ∈ Finset.range n, specW sig i * i

def specSy (y sig : ℕ → ℚ) (n : ℕ) : ℚ := ∑ i ∈ Finset.range n, specW sig i * y i

def specSxx (sig : ℕ → ℚ) (n : ℕ) : ℚ := ∑ i ∈ Finset.range n, specW sig i * (i : ℚ) ^ 2

def specSxy (y sig : ℕ → ℚ) (n : ℕ) : ℚ :=
  ∑ i ∈ Finset.range n, specW sig i * ((i : ℚ) * y i)

def specDelta (sig : ℕ → ℚ) (n : ℕ) : ℚ :=
  specS sig n * specSxx sig n - specSx sig n ^ 2

def specA (y sig : ℕ → ℚ) (n : ℕ) : ℚ :=
  (specSxx sig n * specSy y sig n - specSx sig n * specSxy y sig n) / specDelta sig n

def specB (y sig : ℕ → ℚ) (n : ℕ) : ℚ :=
  (specS sig n * specSxy y sig n - specSx sig n * specSy y sig n) / specDelta sig n

noncomputable def specSigA (sig : ℕ → ℚ) (n : ℕ) : ℝ :=
  Real.sqrt (((specSxx sig n / specDelta sig n) : ℚ) : ℝ)

noncomputable def specSigB (sig : ℕ → ℚ) (n : ℕ) : ℝ :=
  Real.sqrt (((specS sig n / specDelta sig n) : ℚ) : ℝ)

def specChi2 (y sig : ℕ → ℚ) (a b : ℚ) (n : ℕ) : ℚ :=
  ∑ i ∈ Finset.range n, ((y i - a - b * i) / sig i) ^ 2

def specYbar (y : ℕ → ℚ) (n : ℕ) : ℚ := (∑ i ∈ Finset.range n, y i) / n

def specR2 (y : ℕ → ℚ) (a b : ℚ) (n : ℕ) : ℚ :=
  1 - (∑ i ∈ Finset.range n, (y i - (a + b * i)) ^ 2) /
    (∑ i ∈ Finset.range n, (y i - specYbar y n) ^ 2)

theorem olsS_eq_spec (ms : List (ℚ × ℚ)) : olsS ms = specS (sigAt ms) ms.length := by
  rw [olsS, sumIdx_eq_finset, specS]
  rfl

theorem olsSx_eq_spec (ms : List (ℚ × ℚ)) : olsSx ms = specSx (sigAt ms) ms.length := by
  rw [olsSx, sumIdx_eq_finset, specSx]
  exact Finset.sum_congr rfl fun i _ => by rw [specW]; ring

theorem olsSy_eq_spec (ms : List (ℚ × ℚ)) :
    olsSy ms = specSy (yAt ms) (sigAt ms) ms.length := by
  rw [olsSy, sumIdx_eq_finset, specSy]
  exact Finset.sum_congr rfl fun i _ => by rw [specW]; ring

theorem olsSxx_eq_spec (ms : List (ℚ × ℚ)) : olsSxx ms = specSxx (sigAt ms) ms.length := by
  rw [olsSxx, sumIdx_eq_finset, specSxx]
  exact Finset.sum_congr rfl fun i _ => by rw [specW]; ring

theorem olsSxy_eq_spec (ms : List (ℚ × ℚ)) :
    olsSxy ms = specSxy (yAt ms) (sigAt ms) ms.length := by
  rw [olsSxy, sumIdx_eq_finset, specSxy]
  exact Finset.sum_congr rfl fun i _ => by rw [specW]; ring

theorem olsDelta_eq_spec (ms : List (ℚ × ℚ)) :
    olsDelta ms = specDelta (sigAt ms) ms.length := by
  rw [olsDelta, specDelta, olsS_eq_spec, olsSx_eq_spec, olsSxx_eq_spec]

/-- **C3.**  On a sub-window with abscissae `0..n-1`, positive per-point sigmas
and `n ≥ 3`, `_ols_fit` returns exactly the classical weighted-least-squares
quantities of the spec, and `_evaluate_fit` returns the spec's chi-square,
`ν = n - 2`, and `R² = 1 - SSres/SStot` about the mean of `y`. -/
theorem wls_formulas_match_spec (sf : ℚ → ℕ → ℚ) (ms : List (ℚ × ℚ)) (idx : ℕ)
    (hn : 3 ≤ ms.length) (hsig : ∀ i, i < ms.length → 0 < sigAt ms i) :
    ∃ fit, olsFit ms = some fit ∧
      fit.a = specA (yAt ms) (sigAt ms) ms.length ∧
      fit.b = specB (yAt ms) (sigAt ms) ms.length ∧
      Real.sqrt (fit.sig_a_sq : ℝ) = specSigA (sigAt ms) ms.length ∧
      Real.sqrt (fit.sig_b_sq : ℝ) = specSigB (sigAt ms) ms.length ∧
      (evaluateFit sf fit ms idx).chi2v =
        specChi2 (yAt ms) (sigAt ms) fit.a fit.b ms.length ∧
      (evaluateFit sf fit ms idx).nu = ms.length - 2 ∧
      (evaluateFit sf fit ms idx).r2 = specR2 (yAt ms) fit.a fit.b ms.length := by
  have hne : ∀ i, i < ms.length → sigAt ms i ≠ 0 := fun i hi => ne_of_gt (hsig i hi)
  have hsome := olsFit_eq_some ms (by omega) hne
  refine ⟨_, hsome, ?_, ?_, ?_, ?_, ?_, ?_, ?_⟩
  · rw [specA, ← olsDelta_eq_spec, ← olsSxx_eq_spec, ← olsSy_eq_spec, ← olsSx_eq_spec,
      ← olsSxy_eq_spec]
  · rw [specB, ← olsDelta_eq_spec, ← olsS_eq_spec, ← olsSxy_eq_spec, ← olsSx_eq_spec,
      ← olsSy_eq_spec]
  · rw [specSigA, ← olsDelta_eq_spec, ← olsSxx_eq_spec]
  · rw [specSigB, ← olsDelta_eq_spec, ← olsS_eq_spec]
  · show evalChi2 _ ms = _
    rw [evalChi2, sumIdx_eq_finset, specChi2]
  · rfl
  · show evalR2 _ ms = _
    rw [evalR2, specR2, evalSSres, evalSStot, ybar, specYbar,
      sumIdx_eq_finset, sumIdx_eq_finset, sumIdx_eq_finset]

/-- Witness for C3 at the concrete three-point window. -/
theorem wls_formulas_match_spec_witness :
    ((3 : ℕ) ≤ ([((0 : ℚ), (1 : ℚ)), (1, 1), (2, 1)] : List (ℚ × ℚ)).length ∧
     ∀ i, i < ([((0 : ℚ), (1 : ℚ)), (1, 1), (2, 1)] : List (ℚ × ℚ)).length →
       0 < sigAt [((0 : ℚ), (1 : ℚ)), (1, 1), (2, 1)] i) ∧
    (∃ fit, olsFit [((0 : ℚ), (1 : ℚ)), (1, 1), (2, 1)] = some fit ∧
      fit.a = specA (yAt [((0 : ℚ), (1 : ℚ)), (1, 1), (2, 1)])
        (sigAt [((0 : ℚ), (1 : ℚ)), (1, 1), (2, 1)]) 3 ∧
      fit.b = specB (yAt [((0 : ℚ), (1 : ℚ)), (1, 1), (2, 1)])
        (sigAt [((0 : ℚ), (1 : ℚ)), (1, 1), (2, 1)]) 3 ∧
      Real.sqrt (fit.sig_a_sq : ℝ) =
        specSigA (sigAt [((0 : ℚ), (1 : ℚ)), (1, 1), (2, 1)]) 3 ∧
      Real.sqrt (fit.sig_b_sq : ℝ) =
        specSigB (sigAt [((0 : ℚ), (1 : ℚ)), (1, 1), (2, 1)]) 3 ∧
      (evaluateFit wSf fit [((0 : ℚ), (1 : ℚ)), (1, 1), (2, 1)] 0).chi2v =
        specChi2 (yAt [((0 : ℚ), (1 : ℚ)), (1, 1), (2, 1)])
          (sigAt [((0 : ℚ), (1 : ℚ)), (1, 1), (2, 1)]) fit.a fit.b 3 ∧
      (evaluateFit wSf fit [((0 : ℚ), (1 : ℚ)), (1, 1), (2, 1)] 0).nu = 3 - 2 ∧
      (evaluateFit wSf fit [((0 : ℚ), (1 : ℚ)), (1, 1), (2, 1)] 0).r2 =
        specR2 (yAt [((0 : ℚ), (1 : ℚ)), (1, 1), (2, 1)]) fit.a fit.b 3) := by
  have hsig : ∀ i, i < ([((0 : ℚ), (1 : ℚ)), (1, 1), (2, 1)] : List (ℚ × ℚ)).length →
      0 < sigAt [((0 : ℚ), (1 : ℚ)), (1, 1), (2, 1)] i := by
    intro i hi
    have hi3 : i < 3 := by simpa using hi
    interval_cases i <;> norm_num [sigAt, List.getD]
  exact ⟨⟨by norm_num, hsig⟩,
    wls_formulas_match_spec wSf [((0 : ℚ), (1 : ℚ)), (1, 1), (2, 1)] 0 (by norm_num) hsig⟩

/-! ## C10: the standalone constant-sigma regression (src/chamber/chi2.py)

`chi2.py` computes the same Numerical-Recipes fit with one constant sigma.
`_s(sigma, n) = 1/sigma**2 * n`; `_s1`, `_sxx` map over the value list;
`_sxy` and `_chi2` use two-list `map` (Python `map(lambda x, y: ..., x, y)`,
i.e. `zipWith`); `q = scipy.stats.chi2.sf(chi2, len(x) - 2)` enters as the same
opaque parameter `sf`.  `pySigASq`/`pySigBSq` carry the squares of the source's
`math.sqrt(sxx/delta)` and `math.sqrt(s/delta)`. -/

def pyS (sigma : ℚ) (n : ℕ) : ℚ := 1 / sigma ^ 2 * n

def pyS1 (x : List ℚ) (sigma : ℚ) : ℚ := (x.map (fun v => v / sigma ^ 2)).sum

def pySxx (x : List ℚ) (sigma : ℚ) : ℚ := (x.map (fun v => v ^ 2 / sigma ^ 2)).sum

def pySxy (x y : List ℚ) (sigma : ℚ) : ℚ :=
  (List.zipWith (fun a b => a * b / sigma ^ 2) x y).sum

def pyDelta (s sx sxx : ℚ) : ℚ := s * sxx - sx ^ 2

def pyA (sx sy sxx sxy delta : ℚ) : ℚ := (sxx * sy - sx * sxy) / delta

def pyB (s sx sy sxy delta : ℚ) : ℚ := (s * sxy - sx * sy) / delta

def pySigASq (sxx delta : ℚ) : ℚ := sxx / delta

def pySigBSq (s delta : ℚ) : ℚ := s / delta

def pyChi2 (x y : List ℚ) (a b sigma : ℚ) : ℚ :=
  (List.zipWith (fun xi yi => ((yi - a - b * xi) / sigma) ^ 2) x y).sum

/-- `chi2.py chi2(x, y, sigma)` (the `plot` branch elided): returns
`(a, sig_a², b, sig_b², chi2, q)`. -/
def chi2py (sf : ℚ → ℕ → ℚ) (x y : List ℚ) (sigma : ℚ) : ℚ × ℚ × ℚ × ℚ × ℚ × ℚ :=
  (pyA (pyS1 x sigma) (pyS1 y sigma) (pySxx x sigma) (pySxy x y sigma)
     (pyDelta (pyS sigma x.length) (pyS1 x sigma) (pySxx x sigma)),
   pySigASq (pySxx x sigma)
     (pyDelta (pyS sigma x.length) (pyS1 x sigma) (pySxx x sigma)),
   pyB (pyS sigma x.length) (pyS1 x sigma) (pyS1 y sigma) (pySxy x y sigma)
     (pyDelta (pyS sigma x.length) (pyS1 x sigma) (pySxx x sigma)),
   pySigBSq (pyS sigma x.length)
     (pyDelta (pyS sigma x.length) (pyS1 x sigma) (pySxx x sigma)),
   pyChi2 x y
     (pyA (pyS1 x sigma) (pyS1 y sigma) (pySxx x sigma) (pySxy x y sigma)
       (pyDelta (pyS sigma x.length) (pyS1 x sigma) (pySxx x sigma)))
     (pyB (pyS sigma x.length) (pyS1 x sigma) (pyS1 y sigma) (pySxy x y sigma)
       (pyDelta (pyS sigma x.length) (pyS1 x sigma) (pySxx x sigma))) sigma,
   sf (pyChi2 x y
     (pyA (pyS1 x sigma) (pyS1 y sigma) (pySxx x sigma) (pySxy x y sigma)
       (pyDelta (pyS sigma x.length) (pyS1 x sigma) (pySxx x sigma)))
     (pyB (pyS sigma x.length) (pyS1 x sigma) (pyS1 y sigma) (pySxy x y sigma)
       (pyDelta (pyS sigma x.length) (pyS1 x sigma) (pySxx x sigma))) sigma)
     (x.length - 2))

/-! ### Sum-shape bridging lemmas -/

theorem sumIdx_succ_left (n : ℕ) (f : ℕ → ℚ) :
    sumIdx (n + 1) f = f 0 + sumIdx n (fun i => f (i + 1)) := by
  rw [sumIdx, List.range_succ_eq_map, List.map_cons, List.sum_cons, List.map_map]
  rfl

theorem sumIdx_const (n : ℕ) (c : ℚ) : sumIdx n (fun _ => c) = c * n := by
  induction n with
  | zero => simp [sumIdx]
  | succ n ih =>
    rw [sumIdx_succ, ih]
    push_cast
    ring

theorem sum_map_eq_sumIdx (g : ℚ → ℚ) :
    ∀ l : List ℚ, (l.map g).sum = sumIdx l.length (fun i => g (l.getD i 0)) := by
  intro l
  induction l with
  | nil => simp [sumIdx]
  | cons a t ih =>
    rw [List.map_cons, List.sum_cons, List.length_cons, sumIdx_succ_left, ih]
    simp

theorem zipWith_range_sum :
    ∀ (l : List ℚ) (f : ℕ → ℚ → ℚ), (List.zipWith f (List.range l.length) l).sum =
      sumIdx l.length (fun i => f i (l.getD i 0)) := by
  intro l
  induction l with
  | nil =>
    intro f
    simp [sumIdx]
  | cons a t ih =>
    intro f
    rw [List.length_cons, List.range_succ_eq_map, List.zipWith_cons_cons,
      List.zipWith_map_left, List.sum_cons, sumIdx_succ_left,
      ih (fun i b => f (Nat.succ i) b)]
    simp

/-- The mass series seen by the extractor when every point carries the same
sigma (the claim's instantiation). -/
def constSigSeries (ys : List ℚ) (σ : ℚ) : List (ℚ × ℚ) := ys.map (fun v => (v, σ))

/-- The abscissae `x = 0..n-1` handed to `chi2.py` (the claim's instantiation). -/
def natAbscissae (n : ℕ) : List ℚ := (List.range n).map (fun (i : ℕ) => (i : ℚ))

theorem constSigSeries_length (ys : List ℚ) (σ : ℚ) :
    (constSigSeries ys σ).length = ys.length := by
  rw [constSigSeries, List.length_map]

theorem natAbscissae_length (n : ℕ) : (natAbscissae n).length = n := by
  rw [natAbscissae, List.length_map, List.length_range]

theorem constSigSeries_sigAt (ys : List ℚ) (σ : ℚ) (i : ℕ) (hi : i < ys.length) :
    sigAt (constSigSeries ys σ) i = σ := by
  rw [sigAt, List.getD_eq_getElem?_getD, constSigSeries, List.getElem?_map,
    List.getElem?_eq_getElem hi]
  rfl

theorem constSigSeries_yAt (ys : List ℚ) (σ : ℚ) (i : ℕ) (hi : i < ys.length) :
    yAt (constSigSeries ys σ) i = ys.getD i 0 := by
  rw [yAt, List.getD_eq_getElem?_getD, constSigSeries, List.getElem?_map,
    List.getElem?_eq_getElem hi, List.getD_eq_getElem?_getD, List.getElem?_eq_getElem hi]
  rfl

/-- **C10.**  With abscissae `0..n-1` (`n ≥ 3`), any ordinates, and one
constant sigma `σ > 0`, the standalone `chamber.chi2.chi2` regression and the
extractor's per-point-sigma pipeline (`_ols_fit` then `_evaluate_fit`) return
equal `a`, `σₐ` (as squares), `b`, `σᵦ` (as squares), chi-square, and `Q`. -/
theorem chi2py_refines_pipeline (sf : ℚ → ℕ → ℚ) (ys : List ℚ) (σ : ℚ)
    (hn : 3 ≤ ys.length) (hσ : 0 < σ) :
    ∃ fit, olsFit (constSigSeries ys σ) = some fit ∧
      chi2py sf (natAbscissae ys.length) ys σ =
        (fit.a, fit.sig_a_sq, fit.b, fit.sig_b_sq,
         (evaluateFit sf fit (constSigSeries ys σ) 0).chi2v,
         (evaluateFit sf fit (constSigSeries ys σ) 0).q) := by
  have hlen : (constSigSeries ys σ).length = ys.length := constSigSeries_length ys σ
  have hsig : ∀ i, i < (constSigSeries ys σ).length → sigAt (constSigSeries ys σ) i ≠ 0 :=
    fun i hi => by
      rw [constSigSeries_sigAt ys σ i (hlen ▸ hi)]
      exact ne_of_gt hσ
  have hsome := olsFit_eq_some (constSigSeries ys σ) (by omega) hsig
  have e1 : pyS σ ys.length = olsS (constSigSeries ys σ) := by
    rw [pyS, olsS, hlen,
      sumIdx_congr ys.length _ (fun _ => 1 / σ ^ 2)
        (fun i hi => by rw [constSigSeries_sigAt ys σ i hi]),
      sumIdx_const]
  have e2 : pyS1 (natAbscissae ys.length) σ = olsSx (constSigSeries ys σ) := by
    rw [pyS1, natAbscissae, List.map_map, olsSx, hlen]
    rw [sumIdx_congr ys.length _ (fun i => (i : ℚ) / σ ^ 2)
      (fun i hi => by rw [constSigSeries_sigAt ys σ i hi])]
    rfl
  have e3 : pyS1 ys σ = olsSy (constSigSeries ys σ) := by
    rw [pyS1, sum_map_eq_sumIdx, olsSy, hlen]
    exact sumIdx_congr ys.length _ _ (fun i hi => by
      rw [constSigSeries_sigAt ys σ i hi, constSigSeries_yAt ys σ i hi])
  have e4 : pySxx (natAbscissae ys.length) σ = olsSxx (constSigSeries ys σ) := by
    rw [pySxx, natAbscissae, List.map_map, olsSxx, hlen]
    rw [sumIdx_congr ys.length _ (fun i => (i : ℚ) ^ 2 / σ ^ 2)
      (fun i hi => by rw [constSigSeries_sigAt ys σ i hi])]
    rfl
  have e5 : pySxy (natAbscissae ys.length) ys σ = olsSxy (constSigSeries ys σ) := by
    rw [pySxy, natAbscissae, List.zipWith_map_left, zipWith_range_sum, olsSxy, hlen]
    exact sumIdx_congr ys.length _ _ (fun i hi => by
      rw [constSigSeries_sigAt ys σ i hi, constSigSeries_yAt ys σ i hi])
  refine ⟨_, hsome, ?_⟩
  have echi : ∀ a2 b2 : ℚ, pyChi2 (natAbscissae ys.length) ys a2 b2 σ =
      evalChi2 ⟨a2, 0, b2, 0⟩ (constSigSeries ys σ) := by
    intro a2 b2
    rw [pyChi2, natAbscissae, List.zipWith_map_left, zipWith_range_sum, evalChi2, hlen]
    exact sumIdx_congr ys.length _ _ (fun i hi => by
      rw [constSigSeries_sigAt ys σ i hi, constSigSeries_yAt ys σ i hi])
  simp only [chi2py, pyDelta, pyA, pyB, pySigASq, pySigBSq, e1, e2, e3, e4, e5, echi,
    natAbscissae_length, evaluateFit, olsDelta, evalChi2, hlen]

/-- Witness for C10 at `ys = [0,1,2]`, `σ = 1`. -/
theorem chi2py_refines_pipeline_witness :
    ((3 : ℕ) ≤ ([0, 1, 2] : List ℚ).length ∧ (0 : ℚ) < 1) ∧
    (∃ fit, olsFit (constSigSeries [0, 1, 2] 1) = some fit ∧
      chi2py wSf (natAbscissae ([0, 1, 2] : List ℚ).length) [0, 1, 2] 1 =
        (fit.a, fit.sig_a_sq, fit.b, fit.sig_b_sq,
         (evaluateFit wSf fit (constSigSeries [0, 1, 2] 1) 0).chi2v,
         (evaluateFit wSf fit (constSigSeries [0, 1, 2] 1) 0).q)) :=
  ⟨⟨by norm_num, by norm_num⟩,
   chi2py_refines_pipeline wSf [0, 1, 2] 1 (by norm_num) (by norm_num)⟩

/-! ## C6: property sigmas from opaque correlations
(src/chamber/engine/analysis/service.py, lines 323-383)

`HAPropsSI('psi_w', 'T', ., 'P', ., 'RH', .)`, `HAPropsSI('psi_w', 'T', ., 'P',
., 'Tdp', .)` and `HAPropsSI('Vha', 'T', ., 'P', ., 'Y', .)` are opaque
external correlations; they enter as function parameters `psiwRH`, `psiwTdp`,
`vha : ℚ → ℚ → ℚ → ℚ`.  A `ufloat` input is a `(nominal_value, std_dev)`
pair. -/

/-- A `ufloat`'s surface: `(nominal_value, std_dev)`. -/
structure UV where
  nv : ℚ
  sd : ℚ
  deriving DecidableEq, Repr

/-- `x1s`: correlation at nominal `(Ts, P, RH=1)`; sigma from one extra
evaluation with only `Ts` shifted by its sigma (the source then wraps
`ufloat(x1s_nv, abs(x1s_sig))`). -/
def x1sProp (psiwRH : ℚ → ℚ → ℚ → ℚ) (Ts P : UV) : UV :=
  ⟨psiwRH Ts.nv P.nv 1, |psiwRH Ts.nv P.nv 1 - psiwRH (Ts.nv + Ts.sd) P.nv 1|⟩

/-- `x1e`: correlation at nominal `(Te, P, Tdp)`; sigma from one extra
evaluation with `Te` and `Tdp` shifted together. -/
def x1eProp (psiwTdp : ℚ → ℚ → ℚ → ℚ) (Te P Tdp : UV) : UV :=
  ⟨psiwTdp Te.nv P.nv Tdp.nv,
   |psiwTdp Te.nv P.nv Tdp.nv - psiwTdp (Te.nv + Te.sd) P.nv (Tdp.nv + Tdp.sd)|⟩

/-- `rhos`: inverted specific volume at nominal `(Ts, P, Y=x1s_nv)`; sigma from
one extra evaluation with only `Ts` shifted (`Y` is held at the nominal
`x1s_nv`). -/
def rhosProp (vha : ℚ → ℚ → ℚ → ℚ) (Ts P : UV) (x1snv : ℚ) : UV :=
  ⟨1 / vha Ts.nv P.nv x1snv,
   |1 / vha Ts.nv P.nv x1snv - 1 / vha (Ts.nv + Ts.sd) P.nv x1snv|⟩

/-- `rhoe`: like `rhos` at the ambient state `(Te, P, Y=x1e_nv)`. -/
def rhoeProp (vha : ℚ → ℚ → ℚ → ℚ) (Te P : UV) (x1env : ℚ) : UV :=
  ⟨1 / vha Te.nv P.nv x1env,
   |1 / vha Te.nv P.nv x1env - 1 / vha (Te.nv + Te.sd) P.nv x1env|⟩

/-- The spec's finite-difference sensitivity combinator (§4.1) for a
two-argument correlation: evaluate once at the nominals, once more per input
perturbed alone by its own sigma, and combine the deltas in quadrature.  Stated
as the **square** of the output sigma (the quadrature sum) to stay in `ℚ`. -/
def fdQuadSq2 (f : ℚ → ℚ → ℚ) (u v : UV) : ℚ :=
  (f u.nv v.nv - f (u.nv + u.sd) v.nv) ^ 2 +
  (f u.nv v.nv - f u.nv (v.nv + v.sd)) ^ 2

/-- The spec's finite-difference sensitivity combinator for a three-argument
correlation (sigma squared). -/
def fdQuadSq3 (f : ℚ → ℚ → ℚ → ℚ) (u v w : UV) : ℚ :=
  (f u.nv v.nv w.nv - f (u.nv + u.sd) v.nv w.nv) ^ 2 +
  (f u.nv v.nv w.nv - f u.nv (v.nv + v.sd) w.nv) ^ 2 +
  (f u.nv v.nv w.nv - f u.nv v.nv (w.nv + w.sd)) ^ 2

/-- Counterexample to C6: with the correlation `psi_w := P` (so the output
depends only on pressure), `Ts = (300, 1/2)` and `P = (101325, 152)` (both
uncertain), the code's `x1s` sigma is `0`, but the spec's per-input quadrature
over the uncertain inputs `(Ts, P)` is `152² = 23104 ≠ 0`: the code never
perturbs the pressure, so its sigma is not the root-sum-of-squares of the
per-input deltas. -/
theorem fd_quadrature_counterexample :
    (x1sProp (fun _ p _ => p) ⟨300, 1/2⟩ ⟨101325, 152⟩).sd ^ 2 = 0 ∧
    fdQuadSq2 (fun t p => (fun _ p2 _ => p2 : ℚ → ℚ → ℚ → ℚ) t p 1)
      ⟨300, 1/2⟩ ⟨101325, 152⟩ = 23104 ∧
    (x1sProp (fun _ p _ => p) ⟨300, 1/2⟩ ⟨101325, 152⟩).sd ^ 2 ≠
      fdQuadSq2 (fun t p => (fun _ p2 _ => p2 : ℚ → ℚ → ℚ → ℚ) t p 1)
        ⟨300, 1/2⟩ ⟨101325, 152⟩ := by
  refine ⟨?_, ?_, ?_⟩ <;> norm_num [x1sProp, fdQuadSq2]

/-- **C6 (amended).**  Each property sigma is the absolute value of a single
finite difference: the correlation is evaluated once at the nominal inputs and
once more with only the temperature-type inputs perturbed by their own sigmas
(`Ts` alone for `x1s` and `rhos`; `Te` alone for `rhoe`; `Te` and `Tdp`
jointly for `x1e`); the pressure's sigma is never used.  The claimed per-input
quadrature therefore holds exactly when the unperturbed inputs carry no
uncertainty: for `x1s`, `rhos`, `rhoe` when `P.sd = 0`, and for `x1e` when
`P.sd = 0` and `Tdp.sd = 0`. -/
theorem property_sigma_single_delta (psiwRH psiwTdp vha : ℚ → ℚ → ℚ → ℚ)
    (Ts Te P Tdp : UV) (x1snv x1env : ℚ) :
    ((x1sProp psiwRH Ts P).sd =
        |psiwRH Ts.nv P.nv 1 - psiwRH (Ts.nv + Ts.sd) P.nv 1| ∧
      (P.sd = 0 →
        (x1sProp psiwRH Ts P).sd ^ 2 = fdQuadSq2 (fun t p => psiwRH t p 1) Ts P)) ∧
    ((x1eProp psiwTdp Te P Tdp).sd =
        |psiwTdp Te.nv P.nv Tdp.nv - psiwTdp (Te.nv + Te.sd) P.nv (Tdp.nv + Tdp.sd)| ∧
      (P.sd = 0 → Tdp.sd = 0 →
        (x1eProp psiwTdp Te P Tdp).sd ^ 2 = fdQuadSq3 psiwTdp Te P Tdp)) ∧
    ((rhosProp vha Ts P x1snv).sd =
        |1 / vha Ts.nv P.nv x1snv - 1 / vha (Ts.nv + Ts.sd) P.nv x1snv| ∧
      (P.sd = 0 →
        (rhosProp vha Ts P x1snv).sd ^ 2 =
          fdQuadSq2 (fun t p => 1 / vha t p x1snv) Ts P)) ∧
    ((rhoeProp vha Te P x1env).sd =
        |1 / vha Te.nv P.nv x1env - 1 / vha (Te.nv + Te.sd) P.nv x1env| ∧
      (P.sd = 0 →
        (rhoeProp vha Te P x1env).sd ^ 2 =
          fdQuadSq2 (fun t p => 1 / vha t p x1env) Te P)) := by
  refine ⟨⟨rfl, ?_⟩, ⟨rfl, ?_⟩, ⟨rfl, ?_⟩, ⟨rfl, ?_⟩⟩
  · intro hp
    rw [x1sProp, fdQuadSq2, hp, sq_abs]
    ring_nf
  · intro hp hd
    rw [x1eProp, fdQuadSq3, hp, hd, sq_abs]
    ring_nf
  · intro hp
    rw [rhosProp, fdQuadSq2, hp, sq_abs]
    ring_nf
  · intro hp
    rw [rhoeProp, fdQuadSq2, hp, sq_abs]
    ring_nf

/-- Witness for the amended C6 at concrete states with exact pressure and dew
point. -/
theorem property_sigma_single_delta_witness :
    (((⟨101325, 0⟩ : UV).sd = 0) ∧ ((⟨280, 0⟩ : UV).sd = 0)) ∧
    ((x1sProp (fun t p _ => t + p) ⟨300, 1/2⟩ ⟨101325, 0⟩).sd ^ 2 =
      fdQuadSq2 (fun t p => (fun t2 p2 _ => t2 + p2 : ℚ → ℚ → ℚ → ℚ) t p 1)
        ⟨300, 1/2⟩ ⟨101325, 0⟩) ∧
    ((x1eProp (fun t p d => t + p + d) ⟨290, 1/5⟩ ⟨101325, 0⟩ ⟨280, 0⟩).sd ^ 2 =
      fdQuadSq3 (fun t p d => t + p + d) ⟨290, 1/5⟩ ⟨101325, 0⟩ ⟨280, 0⟩) :=
  ⟨⟨rfl, rfl⟩,
   ((property_sigma_single_delta (fun t p _ => t + p) (fun t p d => t + p + d)
      (fun t p y => t + p + y) ⟨300, 1/2⟩ ⟨290, 1/5⟩ ⟨101325, 0⟩ ⟨280, 0⟩ 0 0).1.2 rfl),
   ((property_sigma_single_delta (fun t p _ => t + p) (fun t p d => t + p + d)
      (fun t p y => t + p + y) ⟨300, 1/2⟩ ⟨290, 1/5⟩ ⟨101325, 0⟩ ⟨280, 0⟩ 0 0).2.1.2 rfl rfl)⟩

/-! ## C7 and C9: `ufloat` arithmetic as first-order affine forms

The `uncertainties` package represents every `ufloat` as a nominal value plus
a linear combination of independent error atoms, tracking correlations; two
expressions are equal as uncertain numbers exactly when their nominal values
and all their partial derivatives coincide.  `AF` models that semantics over
`ℚ`: `nv` is the nominal value, `dv j` the derivative with respect to atom
`j`; products and quotients linearize exactly as the package does (first-order
jets). -/

structure AF where
  nv : ℚ
  dv : ℕ → ℚ

def AF.add (x y : AF) : AF := ⟨x.nv + y.nv, fun j => x.dv j + y.dv j⟩

def AF.sub (x y : AF) : AF := ⟨x.nv - y.nv, fun j => x.dv j - y.dv j⟩

def AF.mul (x y : AF) : AF := ⟨x.nv * y.nv, fun j => x.nv * y.dv j + y.nv * x.dv j⟩

def AF.div (x y : AF) : AF :=
  ⟨x.nv / y.nv, fun j => (x.dv j * y.nv - x.nv * y.dv j) / y.nv ^ 2⟩

def AF.const (c : ℚ) : AF := ⟨c, fun _ => 0⟩

instance : Add AF := ⟨AF.add⟩

instance : Sub AF := ⟨AF.sub⟩

instance : Mul AF := ⟨AF.mul⟩

instance : Div AF := ⟨AF.div⟩

@[simp] theorem AF.add_nv (x y : AF) : (x + y).nv = x.nv + y.nv := rfl

@[simp] theorem AF.add_dv (x y : AF) (j : ℕ) : (x + y).dv j = x.dv j + y.dv j := rfl

@[simp] theorem AF.sub_nv (x y : AF) : (x - y).nv = x.nv - y.nv := rfl

@[simp] theorem AF.sub_dv (x y : AF) (j : ℕ) : (x - y).dv j = x.dv j - y.dv j := rfl

@[simp] theorem AF.mul_nv (x y : AF) : (x * y).nv = x.nv * y.nv := rfl

@[simp] theorem AF.mul_dv (x y : AF) (j : ℕ) :
    (x * y).dv j = x.nv * y.dv j + y.nv * x.dv j := rfl

@[simp] theorem AF.div_nv (x y : AF) : (x / y).nv = x.nv / y.nv := rfl

@[simp] theorem AF.div_dv (x y : AF) (j : ℕ) :
    (x / y).dv j = (x.dv j * y.nv - x.nv * y.dv j) / y.nv ^ 2 := rfl

@[simp] theorem AF.const_nv (c : ℚ) : (AF.const c).nv = c := rfl

@[simp] theorem AF.const_dv (c : ℚ) (j : ℕ) : (AF.const c).dv j = 0 := rfl

theorem AF.eq_of_parts (x y : AF) (h1 : x.nv = y.nv) (h2 : ∀ j, x.dv j = y.dv j) :
    x = y := by
  cases x
  cases y
  simp only at h1 h2
  subst h1
  congr 1
  exact funext h2

theorem AF.mul_comm (x y : AF) : x * y = y * x := by
  apply AF.eq_of_parts
  · simp [Rat.mul_comm]
  · intro j
    simp
    ring

theorem AF.mul_assoc (x y z : AF) : x * y * z = x * (y * z) := by
  apply AF.eq_of_parts
  · simp [Rat.mul_assoc]
  · intro j
    simp
    ring

/-- Python's `sum(...)` over a list of `ufloat`s: left fold from `0`. -/
def afSum (l : List AF) : AF := l.foldl (· + ·) (AF.const 0)

theorem afSum_foldl_nv (l : List AF) :
    ∀ acc : AF, (l.foldl (· + ·) acc).nv = acc.nv + (l.map AF.nv).sum := by
  induction l with
  | nil => intro acc; simp
  | cons t ts ih =>
    intro acc
    rw [List.foldl_cons, ih (acc + t), List.map_cons, List.sum_cons]
    simp
    ring

theorem afSum_foldl_dv (l : List AF) (j : ℕ) :
    ∀ acc : AF, (l.foldl (· + ·) acc).dv j = acc.dv j + (l.map (fun t => t.dv j)).sum := by
  induction l with
  | nil => intro acc; simp
  | cons t ts ih =>
    intro acc
    rw [List.foldl_cons, ih (acc + t), List.map_cons, List.sum_cons]
    simp
    ring

@[simp] theorem afSum_nv (l : List AF) : (afSum l).nv = (l.map AF.nv).sum := by
  rw [afSum, afSum_foldl_nv]
  simp

@[simp] theorem afSum_dv (l : List AF) (j : ℕ) :
    (afSum l).dv j = (l.map (fun t => t.dv j)).sum := by
  rw [afSum, afSum_foldl_dv]
  simp

theorem sum_map_affine2 (p q r : ℚ) (g h : AF → ℚ) :
    ∀ l : List AF, (l.map (fun t => p + q * g t + r * h t)).sum =
      l.length * p + q * (l.map g).sum + r * (l.map h).sum := by
  intro l
  induction l with
  | nil => simp
  | cons t ts ih =>
    rw [List.map_cons, List.sum_cons, ih, List.map_cons, List.sum_cons, List.map_cons,
      List.sum_cons, List.length_cons]
    push_cast
    ring

/-! ### `_set_local_exp_state` (src/chamber/engine/analysis/service.py, lines 284-305)

The source averages the surface-temperature channel first and then applies the
infrared-sensor calibration to the mean:
`Ts_bar_K = sum(data.Ts)/samples; Ts_bar_C = Ts_bar_K - 273.15;
Ts_bar_C = a + b*Ts_bar_C; Ts_bar_K = Ts_bar_C + 273.15`, with
`a = ufloat(-2.34, 0.07)` and `b = ufloat(1.0445, 0.0022)` (engine `__init__`,
lines 38-40). -/

/-- `273.15`. -/
def offsetC : ℚ := 27315 / 100

/-- The calibrated mean surface temperature the engine stores in the
experimental state (`Ts`), exactly in the source's order of operations. -/
def expStateTs (a b : AF) (TsList : List AF) : AF :=
  a + b * (afSum TsList / AF.const TsList.length - AF.const offsetC) + AF.const offsetC

/-- The claim's description: every per-observation surface temperature is
first converted to °C, passed through `intercept + slope * (raw °C)`,
converted back to K, and only then averaged. -/
def calibratedMeanTs (a b : AF) (TsList : List AF) : AF :=
  afSum (TsList.map (fun T => a + b * (T - AF.const offsetC) + AF.const offsetC)) /
    AF.const TsList.length

/-- **C7.**  In the correlation-tracking first-order semantics of the
`uncertainties` package, calibrating the mean (what the source computes)
equals the mean of the per-observation calibrated temperatures (what the claim
and spec state): the calibration is affine, and both its nominal value and
every atom derivative commute with the averaging.  The two `ufloat`
expressions are equal as uncertain numbers, so the claim's
calibration-before-averaging reading holds extensionally. -/
theorem calibration_commutes_with_mean (a b : AF) (TsList : List AF)
    (hne : TsList.length ≠ 0) :
    expStateTs a b TsList = calibratedMeanTs a b TsList := by
  have hn : ((TsList.length : ℚ)) ≠ 0 := Nat.cast_ne_zero.mpr hne
  apply AF.eq_of_parts
  · simp only [expStateTs, calibratedMeanTs, AF.add_nv, AF.mul_nv, AF.sub_nv, AF.div_nv,
      AF.const_nv, afSum_nv, List.map_map]
    have hmap : TsList.map
        (AF.nv ∘ fun T => a + b * (T - AF.const offsetC) + AF.const offsetC) =
        TsList.map (fun T =>
          (a.nv + offsetC - b.nv * offsetC) + b.nv * AF.nv T + 0 * AF.nv T) := by
      apply List.map_congr_left
      intro T _
      simp [Function.comp, AF.add_nv, AF.mul_nv, AF.sub_nv, AF.const_nv]
      ring
    rw [hmap, sum_map_affine2]
    field_simp
    ring
  · intro j
    simp only [expStateTs, calibratedMeanTs, AF.add_dv, AF.mul_dv, AF.sub_dv, AF.div_dv,
      AF.add_nv, AF.mul_nv, AF.sub_nv, AF.div_nv, AF.const_nv, AF.const_dv,
      afSum_nv, afSum_dv, List.map_map]
    have hmap : TsList.map
        ((fun t => t.dv j) ∘ fun T => a + b * (T - AF.const offsetC) + AF.const offsetC) =
        TsList.map (fun T =>
          (a.dv j - offsetC * b.dv j) + b.nv * (fun t => t.dv j) T + b.dv j * AF.nv T) := by
      apply List.map_congr_left
      intro T _
      simp [Function.comp, AF.add_dv, AF.mul_dv, AF.sub_dv, AF.sub_nv, AF.const_nv,
        AF.const_dv]
      ring
    have hmapnv : TsList.map
        (AF.nv ∘ fun T => a + b * (T - AF.const offsetC) + AF.const offsetC) =
        TsList.map (fun T =>
          (a.nv + offsetC - b.nv * offsetC) + b.nv * AF.nv T + 0 * AF.nv T) := by
      apply List.map_congr_left
      intro T _
      simp [Function.comp, AF.add_nv, AF.mul_nv, AF.sub_nv, AF.const_nv]
      ring
    rw [hmap, hmapnv, sum_map_affine2, sum_map_affine2]
    field_simp
    ring

/-- Witness for C7 at a concrete two-observation window. -/
theorem calibration_commutes_with_mean_witness :
    (([⟨290, fun _ => 0⟩, ⟨292, fun _ => 0⟩] : List AF).length ≠ 0) ∧
    expStateTs ⟨-234/100, fun _ => 0⟩ ⟨10445/10000, fun _ => 0⟩
        [⟨290, fun _ => 0⟩, ⟨292, fun _ => 0⟩] =
      calibratedMeanTs ⟨-234/100, fun _ => 0⟩ ⟨10445/10000, fun _ => 0⟩
        [⟨290, fun _ => 0⟩, ⟨292, fun _ => 0⟩] :=
  ⟨by simp,
   calibration_commutes_with_mean ⟨-234/100, fun _ => 0⟩ ⟨10445/10000, fun _ => 0⟩
     [⟨290, fun _ => 0⟩, ⟨292, fun _ => 0⟩] (by simp)⟩

/-! ### `_set_local_properties` / `_set_nondim_groups`
(src/chamber/engine/analysis/service.py, lines 319-428)

`mdot = ufloat(-b, sig_b)` is a fresh independent uncertain number whose
nominal value is the **negated** regression slope; `self._A = pi*self._R**2`
uses the float constant `math.pi` (entering as the parameter `piq`);
`pow(T/256, 1.685)` is a transcendental power whose linearized value enters as
the opaque parameter `tpow`; the manually propagated `ln_Bm1` involves
`math.log` and the standard deviation of `Bm1`, so it enters as the opaque
parameter `lnOf` applied to `Bm1`. -/

/-- `ufloat(-b, sig_b)`: nominal `-b`, sigma `sig_b` carried by a fresh atom
`k` (unit-variance atom convention). -/
def mdotAF (b sigb : ℚ) (k : ℕ) : AF := ⟨-b, fun j => if j = k then sigb else 0⟩

/-- `mddp = mdot/self._A` with `self._A = pi*self._R**2`. -/
def propsMddp (piq : ℚ) (R mdot : AF) : AF := mdot / (AF.const piq * (R * R))

/-- `Bm1 = (m1s - m1e)/(1 - m1s)`. -/
def propsBm1 (m1s m1e : AF) : AF := (m1s - m1e) / (AF.const 1 - m1s)

/-- `rho = (rhos + rhoe)/2`. -/
def propsRho (rhos rhoe : AF) : AF := (rhos + rhoe) / AF.const 2

/-- `T = (Te + Ts)/2`. -/
def propsT (Te Ts : AF) : AF := (Te + Ts) / AF.const 2

/-- `D12 = 1.97e-5 * (101325/P) * pow(T/256, 1.685)`; `tpow` stands for the
opaque linearized power factor. -/
def propsD12 (P tpow : AF) : AF :=
  AF.const (197 / 10 ^ 7) * (AF.const 101325 / P) * tpow

/-- `_set_nondim_groups`: `ShR = (mddp * R) / (ln_Bm1 * rho * D12)`, with
`ln_Bm1 = lnOf Bm1` the manually propagated logarithm. -/
def setNondimShR (lnOf : AF → AF) (Bm1 mddp R rho D12 : AF) : AF :=
  (mddp * R) / (lnOf Bm1 * rho * D12)

/-- Counterexample to C9 as stated: the claim says `ṁ` is the window's
regression slope, but the source sets `mdot = ufloat(-b, sig_b)`: at slope
`b = 1` the code's mass flux has nominal value `-1 ≠ 1`. -/
theorem shr_mdot_sign_counterexample :
    (mdotAF 1 (1/100) 0).nv = -1 ∧ (mdotAF 1 (1/100) 0).nv ≠ 1 := by
  constructor
  · rfl
  · rw [mdotAF]
    norm_num

/-- **C9 (amended).**  With `ṁ` the *negation* of the window's regression
slope (the code's `ufloat(-b, sig_b)`; the slope of a drying mass series is
negative, the flux positive), the Sherwood-analog satisfies
`ShR = (ṁ/Area)·R / (ρ·D12·ln(1+Bm1))` with `Area = π·R²`,
`Bm1 = (m1s - m1e)/(1 - m1s)`, `ρ` the arithmetic mean of the surface and
ambient densities, and `D12` the power law in `(101325/P)` and the opaque
`(T/256)^1.685` factor — an equality of uncertain numbers in the first-order
jet algebra (the denominator products commute). -/
theorem shr_formula (lnOf : AF → AF) (piq b sigb : ℚ) (k : ℕ)
    (R m1s m1e rhos rhoe P tpow : AF) :
    setNondimShR lnOf (propsBm1 m1s m1e) (propsMddp piq R (mdotAF b sigb k)) R
        (propsRho rhos rhoe) (propsD12 P tpow) =
      (mdotAF b sigb k / (AF.const piq * (R * R)) * R) /
        (propsRho rhos rhoe * propsD12 P tpow * lnOf (propsBm1 m1s m1e)) ∧
    (mdotAF b sigb k).nv = -b ∧
    propsBm1 m1s m1e = (m1s - m1e) / (AF.const 1 - m1s) ∧
    propsRho rhos rhoe = (rhos + rhoe) / AF.const 2 ∧
    propsD12 P tpow = AF.const (197 / 10 ^ 7) * (AF.const 101325 / P) * tpow := by
  refine ⟨?_, rfl, rfl, rfl, rfl⟩
  rw [setNondimShR, propsMddp]
  rw [show lnOf (propsBm1 m1s m1e) * propsRho rhos rhoe * propsD12 P tpow =
      propsRho rhos rhoe * propsD12 P tpow * lnOf (propsBm1 m1s m1e) by
    rw [AF.mul_comm (lnOf (propsBm1 m1s m1e)) (propsRho rhos rhoe), AF.mul_assoc,
      AF.mul_assoc, AF.mul_comm (lnOf (propsBm1 m1s m1e)) (propsD12 P tpow)]]

/-! ## C8: the film-averaging rule and diffusion-correlation selectors -/

/-- The spec's ConfigurationError: an unrecognized correlation or rule name. -/
inductive FilmCalcError where
  | configuration : String → FilmCalcError
  deriving DecidableEq, Repr

/-- Modelled from the spec: the FilmStateSolver's film-averaging-rule selector
is not under `src/` (only its tests are; `tests/test_film.py` exercises
`chamber.film.use_rule` and `tests/test_models.py` a `get_ref_state` with
rules `'mean'`/`'one-third'`).  Spec §4.4 step 6: the film reference
temperature is `T_film = Tₛ + w·(Tₑ − Tₛ)` with `w = 1/2` for rule `"mean"`
and `w = 1/3` for `"one-third"`; an unrecognized rule name raises a
ConfigurationError immediately (the tests' expected value for `'mean'` is the
plain average `(e + s)/2`). -/
def useRule (e s : ℚ) (rule : String) : Except FilmCalcError ℚ :=
  if rule = "mean" then Except.ok ((e + s) / 2)
  else if rule = "one-third" then Except.ok (s + (e - s) / 3)
  else Except.error (FilmCalcError.configuration rule)

/-- Modelled from the spec: the diffusion-correlation selector is not under
`src/` (only its tests are; `tests/test_models.py` checks
`get_bin_diff_coeff(t, p, 'Mills') = 1.97e-5·(101325/p)·(t/256)^1.685` and
`get_bin_diff_coeff(t, p, 'Marrero') = 1.87e-10·t^2.072/(p/101325)`).  Spec
§4.4 step 7: a power law in the reference pressure over `P` and the film
temperature over a reference temperature, with correlation-specific constants;
an unrecognized correlation name raises a ConfigurationError immediately.
`powf` stands for the opaque real power function. -/
def getBinDiffCoeff (powf : ℚ → ℚ → ℚ) (tRef p : ℚ) (ref : String) :
    Except FilmCalcError ℚ :=
  if ref = "Mills" then
    Except.ok ((197 / 10 ^ 7) * (101325 / p) * powf (tRef / 256) (337 / 200))
  else if ref = "Marrero" then
    Except.ok ((187 / 10 ^ 12) * powf tRef (259 / 125) / (p / 101325))
  else Except.error (FilmCalcError.configuration ref)

/-- **C8.**  The film reference temperature is `T_film = Tₛ + w·(Tₑ − Tₛ)`
with `w = 1/2` for rule `"mean"` and `w = 1/3` for `"one-third"`; every
unrecognized averaging-rule or diffusion-correlation name yields a
ConfigurationError immediately (no retry: the selector returns the error
without evaluating any correlation); and the extractor's hard-coded film
temperature `T = (Te + Ts)/2` (service.py line 389) is exactly the `"mean"`
rule. -/
theorem film_rule_and_correlation_selectors (e s tRef p : ℚ) (powf : ℚ → ℚ → ℚ)
    (rule ref : String) :
    useRule e s "mean" = Except.ok (s + (1/2) * (e - s)) ∧
    useRule e s "one-third" = Except.ok (s + (1/3) * (e - s)) ∧
    (rule ≠ "mean" → rule ≠ "one-third" →
      useRule e s rule = Except.error (FilmCalcError.configuration rule)) ∧
    (ref ≠ "Mills" → ref ≠ "Marrero" →
      getBinDiffCoeff powf tRef p ref = Except.error (FilmCalcError.configuration ref)) ∧
    (∀ Te Ts : AF, (propsT Te Ts).nv = Ts.nv + (1/2) * (Te.nv - Ts.nv)) := by
  refine ⟨?_, ?_, ?_, ?_, ?_⟩
  · rw [useRule, if_pos rfl]
    congr 1
    ring
  · rw [useRule, if_neg (by decide), if_pos rfl]
    congr 1
    ring
  · intro h1 h2
    rw [useRule, if_neg h1, if_neg h2]
  · intro h1 h2
    rw [getBinDiffCoeff, if_neg h1, if_neg h2]
  · intro Te Ts
    rw [propsT]
    simp
    ring

/-- Witness for C8 with the unrecognized names `'1/4'` and `'Fuller'`. -/
theorem film_rule_and_correlation_selectors_witness :
    (("1/4" : String) ≠ "mean" ∧ ("1/4" : String) ≠ "one-third" ∧
     ("Fuller" : String) ≠ "Mills" ∧ ("Fuller" : String) ≠ "Marrero") ∧
    (useRule 300 290 "mean" = Except.ok (290 + (1/2) * (300 - 290)) ∧
     useRule 300 290 "one-third" = Except.ok (290 + (1/3) * (300 - 290)) ∧
     useRule 300 290 "1/4" = Except.error (FilmCalcError.configuration "1/4") ∧
     getBinDiffCoeff (fun x _ => x) 300 101325 "Fuller" =
       Except.error (FilmCalcError.configuration "Fuller")) := by
  have h := film_rule_and_correlation_selectors 300 290 300 101325 (fun x _ => x)
    "1/4" "Fuller"
  exact ⟨⟨by decide, by decide, by decide, by decide⟩,
    h.1, h.2.1, h.2.2.1 (by decide) (by decide), h.2.2.2.1 (by decide) (by decide)⟩
